import Mathlib

/-!
Verification development for the multi-source document-extraction fusion
pipeline: a shallow embedding, in Lean 4, of the repository's
`ResultComparator` (src/processing/comparison.py), `EnsembleProcessor`
(src/processing/processors/ensemble_processor.py) and `TextCurator`
(src/processing/curation/text_curator.py), together with theorems about the
embedded definitions.

Modelling conventions:
* Python `str` is modelled as Lean `String` (a wrapper over `List Char`);
  character-level processing is done on `List Char`.
* Python `float` arithmetic is modelled over `Rat`; `round(x, n)` is modelled
  as exact rational rounding half-to-even (`pyRound`).
* A Python dict key that may be absent is modelled as an `Option` field; a
  key that is present but bound to `None` is modelled as `some none`.
* External library calls are modelled at the granularity the code uses them:
  `unicodedata.normalize("NFKC", ...)` is modelled character-wise by a
  compatibility-decomposition table restricted to the characters exercised in
  this development (NFKC is the identity on every ASCII character);
  `langdetect` and the sentence-transformers embedding model are abstracted
  as explicit capability parameters, exactly mirroring the module-level
  availability flags of the source; `hashlib.md5` is modelled as an injective
  content hash.
-/

/-! ## Character classes used by the curator's regexes -/

/-- The whitespace class of Python's `re` module (and `str.split`/`str.strip`)
for text patterns: ASCII whitespace, `\x1c`-`\x1f`, NEL, NBSP and the Unicode
space separators. -/
def pyIsSpace (c : Char) : Bool :=
  c == ' ' || c == '\t' || c == '\n' || c == '\r' ||
  c.toNat == 0x0b || c.toNat == 0x0c ||
  (decide (0x1c ≤ c.toNat) && decide (c.toNat ≤ 0x1f)) ||
  c.toNat == 0x85 || c.toNat == 0xa0 || c.toNat == 0x1680 ||
  (decide (0x2000 ≤ c.toNat) && decide (c.toNat ≤ 0x200a)) ||
  c.toNat == 0x2028 || c.toNat == 0x2029 || c.toNat == 0x202f ||
  c.toNat == 0x205f || c.toNat == 0x3000

/-- The control-character class removed by `clean_text`:
`[\x00-\x08\x0b-\x0c\x0e-\x1f\x7f-\x9f]`. -/
def isCtrlRemoved (c : Char) : Bool :=
  decide (c.toNat ≤ 0x08) ||
  (decide (0x0b ≤ c.toNat) && decide (c.toNat ≤ 0x0c)) ||
  (decide (0x0e ≤ c.toNat) && decide (c.toNat ≤ 0x1f)) ||
  (decide (0x7f ≤ c.toNat) && decide (c.toNat ≤ 0x9f))

/-- The character class of the URL regex
`http[s]?://(?:[a-zA-Z]|[0-9]|[$-_@.&+]|[!*\\(\\),]|(?:%[0-9a-fA-F][0-9a-fA-F]))+`:
the union of its single-character alternatives is `!`, the range `$`-`_`
(which already contains `%`, the digits, the uppercase letters, `:` and `/`)
and the lowercase letters, so the `%XX` alternative adds nothing. -/
def isUrlChar (c : Char) : Bool :=
  c == '!' || (decide (0x24 ≤ c.toNat) && decide (c.toNat ≤ 0x5f)) ||
  (decide ('a' ≤ c) && decide (c ≤ 'z'))

/-! ## NFKC normalization model

`unicodedata.normalize("NFKC", s)` is modelled character-wise: compatibility
decompositions for the non-ASCII characters exercised in this development,
identity elsewhere. Real NFKC is the identity on every ASCII string, which is
the only regime in which the general theorems below use this model. -/

/-- Compatibility decomposition of one character (see module conventions). -/
def nfkcChar (c : Char) : List Char :=
  if c = 'ﬁ' then ['f', 'i']
  else if c = 'ﬂ' then ['f', 'l']
  else if c = 'ﬃ' then ['f', 'f', 'i']
  else [c]

/-- The model of `unicodedata.normalize("NFKC", ...)`. -/
def nfkc (x : List Char) : List Char := x.flatMap nfkcChar

/-! ## The individual substitution passes of `TextCurator.clean_text` -/

/-- Scanner for `re.sub(r"\s+", " ", x)`; `prevSpace` records whether the
scanner is inside a whitespace run whose single replacement space has
already been emitted. -/
def wsCollapseAux (prevSpace : Bool) : List Char → List Char
  | [] => []
  | c :: rest =>
    if pyIsSpace c then
      if prevSpace then wsCollapseAux true rest
      else ' ' :: wsCollapseAux true rest
    else c :: wsCollapseAux false rest

/-- `re.sub(r"\s+", " ", x)`: collapse every maximal whitespace run to one
space. -/
def wsCollapse (x : List Char) : List Char := wsCollapseAux false x

/-- Emit a completed run of `count` copies of `d`: replaced by `repl` when
the run reached the regex's lower bound `m`, kept verbatim otherwise. -/
def flushRun (d : Char) (m : Nat) (repl : List Char) (count : Nat) : List Char :=
  if m ≤ count then repl else List.replicate count d

/-- Scanner for `re.sub(r"[d]{m,}", repl, x)`; `count` is the length of the
pending run of `d` being scanned. -/
def collapseRunAux (d : Char) (m : Nat) (repl : List Char) (count : Nat) :
    List Char → List Char
  | [] => flushRun d m repl count
  | c :: rest =>
    if c = d then collapseRunAux d m repl (count + 1) rest
    else flushRun d m repl count ++ c :: collapseRunAux d m repl 0 rest

/-- `re.sub(r"[d]{m,}", repl, x)` for a single-character class: every maximal
run of `d` of length at least `m` is replaced by `repl`; shorter runs are
kept. Used for the `!!!`, `???`, `....` and `\n\n\n` rules. -/
def collapseRun (d : Char) (m : Nat) (repl : List Char) (x : List Char) : List Char :=
  collapseRunAux d m repl 0 x

/-- Tail of a URL match after the literal `http`: `[s]?://` followed by a
nonempty maximal run of URL characters (the regex engine's greedy `+`).
Returns the rest of the input after the match. -/
def urlTail (rest : List Char) : Option (List Char) :=
  match rest with
  | 's' :: ':' :: '/' :: '/' :: r =>
    if r.takeWhile isUrlChar = [] then none else some (r.dropWhile isUrlChar)
  | ':' :: '/' :: '/' :: r =>
    if r.takeWhile isUrlChar = [] then none else some (r.dropWhile isUrlChar)
  | _ => none

/-- A URL match starting at the head of `x` (regex
`http[s]?://(...)+`); returns the suffix after the match. -/
def tryUrl (x : List Char) : Option (List Char) :=
  match x with
  | 'h' :: 't' :: 't' :: 'p' :: rest => urlTail rest
  | _ => none

theorem urlTail_length {rest r : List Char} (h : urlTail rest = some r) :
    r.length < rest.length := by
  unfold urlTail at h
  split at h
  · split at h
    · exact absurd h (by simp)
    · simp only [Option.some.injEq] at h
      subst h
      refine lt_of_le_of_lt (List.Sublist.length_le (List.dropWhile_sublist _)) ?_
      simp only [List.length_cons]
      omega
  · split at h
    · exact absurd h (by simp)
    · simp only [Option.some.injEq] at h
      subst h
      refine lt_of_le_of_lt (List.Sublist.length_le (List.dropWhile_sublist _)) ?_
      simp only [List.length_cons]
      omega
  · exact absurd h (by simp)

theorem tryUrl_length {x r : List Char} (h : tryUrl x = some r) :
    r.length < x.length := by
  unfold tryUrl at h
  split at h
  · calc r.length < _ := urlTail_length h
      _ < _ + 4 := by omega
    -- length of 'h'::'t'::'t'::'p'::rest
  · exact absurd h (by simp)

/-- `re.sub(urlRegex, "", x)`: scan left to right; at each position remove a
URL match if one starts there (resuming after the match), otherwise keep one
character and advance. -/
def urlRemove (x : List Char) : List Char :=
  match h : tryUrl x with
  | some r => urlRemove r
  | none =>
    match x with
    | [] => []
    | c :: rest => c :: urlRemove rest
termination_by x.length
decreasing_by
  · exact tryUrl_length h
  · simp

/-- Whether the `\S+@\S+` regex matches inside a maximal non-space token:
by leftmost-greedy matching this happens exactly when the token carries `@`
at a position that has at least one non-space character on each side, and in
that case the match is the whole token. -/
def tokenHasInnerAt (tok : List Char) : Bool := (tok.drop 1).dropLast.contains '@'

/-- Emit a completed token for the email pass: dropped whole when the
`\S+@\S+` regex matches inside it, kept verbatim otherwise. -/
def flushTok (tok : List Char) : List Char :=
  if tokenHasInnerAt tok then [] else tok

/-- Scanner for `re.sub(r"\S+@\S+", "", x)`; `acc` is the reversed pending
non-space token. -/
def emailRemoveAux (acc : List Char) : List Char → List Char
  | [] => flushTok acc.reverse
  | c :: rest =>
    if pyIsSpace c then flushTok acc.reverse ++ c :: emailRemoveAux [] rest
    else emailRemoveAux (c :: acc) rest

/-- `re.sub(r"\S+@\S+", "", x)`: each maximal non-space token containing an
interior `@` is removed whole; surrounding whitespace is kept. -/
def emailRemove (x : List Char) : List Char := emailRemoveAux [] x

/-- Python `str.strip()`: drop whitespace from both ends. -/
def pyStrip (x : List Char) : List Char :=
  ((x.dropWhile pyIsSpace).reverse.dropWhile pyIsSpace).reverse

/-- Scanner for Python `str.split()`; `acc` is the reversed pending token. -/
def pyWordsAux (acc : List Char) : List Char → List (List Char)
  | [] => if acc = [] then [] else [acc.reverse]
  | c :: rest =>
    if pyIsSpace c then
      if acc = [] then pyWordsAux [] rest
      else acc.reverse :: pyWordsAux [] rest
    else pyWordsAux (c :: acc) rest

/-- Python `str.split()` with no separator: maximal non-space tokens, empty
tokens discarded. -/
def pyWords (x : List Char) : List (List Char) := pyWordsAux [] x

/-- A URL match requires the literal `://`, so on input without `:` the URL
pass is the identity. -/
theorem urlRemove_eq_self {x : List Char} (h : ':' ∉ x) : urlRemove x = x := by
  induction x using urlRemove.induct with
  | case1 x r hr ih =>
    exfalso
    unfold tryUrl at hr
    split at hr
    · rename_i rest
      unfold urlTail at hr
      split at hr <;> simp_all
    · simp at hr
  | case2 hr hr2 =>
    unfold urlRemove
    simp [tryUrl]
  | case3 c rest hr hr2 ih =>
    simp only [List.mem_cons, not_or] at h
    unfold urlRemove
    split
    · rename_i r hsome
      rw [hr] at hsome
      cases hsome
    · simp [ih h.2]

/-! ## Rounding

Python's `round(x, n)` rounds half to even; it is modelled exactly over `Rat`. -/

/-- Round a rational to the nearest integer, half to even. -/
def roundHalfEven (q : Rat) : Int :=
  let f := q.floor
  let r := q - f
  if r < 1/2 then f
  else if 1/2 < r then f + 1
  else if f % 2 = 0 then f else f + 1

/-- `round(q, digits)` over the rationals. -/
def pyRound (digits : Nat) (q : Rat) : Rat :=
  (roundHalfEven (q * 10 ^ digits) : Rat) / 10 ^ digits

/-! ## `TextCurator.clean_text` -/

/-- The `cleaning_stats` dictionary of `clean_text`. The `reduction_percent`
key is only present in the non-empty-input branch of the source, hence an
`Option` field. -/
structure CleaningStats where
  original_length : Nat
  cleaned_length : Nat
  removed_chars : Int
  reduction_percent : Option Rat
deriving DecidableEq, Repr

/-- Result of `TextCurator.clean_text`. -/
structure CleanResult where
  cleaned_text : String
  cleaning_stats : CleaningStats
deriving DecidableEq, Repr

/-- The cleaning pipeline of `clean_text` after the empty-input check, in
source order: NFKC; whitespace collapse; control removal; `!`/`?`/`.` run
collapse; URL removal; email removal; newline-run collapse; strip. -/
def cleanPipeline (x : List Char) : List Char :=
  pyStrip (collapseRun '\n' 3 ['\n', '\n']
    (emailRemove (urlRemove (collapseRun '.' 4 ['.', '.', '.']
      (collapseRun '?' 3 ['?'] (collapseRun '!' 3 ['!']
        ((wsCollapse (nfkc x)).filter (fun c => !isCtrlRemoved c))))))))

/-- `TextCurator.clean_text`. -/
def cleanText (t : String) : CleanResult :=
  if t = "" then
    { cleaned_text := ""
      cleaning_stats :=
        { original_length := 0, cleaned_length := 0, removed_chars := 0
          reduction_percent := none } }
  else
    let original_length := t.length
    let cleaned := cleanPipeline t.data
    let cleaned_length := cleaned.length
    let removed_chars : Int := (original_length : Int) - (cleaned_length : Int)
    { cleaned_text := String.mk cleaned
      cleaning_stats :=
        { original_length := original_length
          cleaned_length := cleaned_length
          removed_chars := removed_chars
          reduction_percent :=
            some (pyRound 2
              (if 0 < original_length then
                (removed_chars : Rat) / (original_length : Rat) * 100
              else 0)) } }

/-! ## `TextCurator.assess_quality` -/

/-- `len(text.split())`. -/
def qmWordCount (t : String) : Nat := (pyWords t.data).length

/-- `len(text.replace(" ", ""))`. -/
def qmCharCount (t : String) : Nat := (t.data.filter (fun c => c != ' ')).length

/-- `len(set(text.lower()))`. Python's `str.lower` is modelled character-wise
by `Char.toLower` (they agree on the ASCII texts considered here). -/
def qmUniqueChars (t : String) : Nat := (t.data.map Char.toLower).dedup.length

/-- `unique_chars / max(len(text), 1)`. -/
def qmCharDiversity (t : String) : Rat :=
  (qmUniqueChars t : Rat) / ((max t.length 1 : Nat) : Rat)

/-- The largest value of `Counter(words)`: the highest number of occurrences
of any single word. -/
def qmMaxFreq (t : String) : Nat :=
  (((pyWords t.data).map (fun w => (pyWords t.data).count w)).max?).getD 0

/-- `max_freq / len(words)` (used only when the word list is nonempty). -/
def qmRepetition (t : String) : Rat :=
  (qmMaxFreq t : Rat) / ((pyWords t.data).length : Rat)

/-- The character class of `re.findall(r"[^\w\s]", text)`: neither a word
character (`\w`, modelled on ASCII as alphanumeric or underscore) nor
whitespace. -/
def qmSpecialCount (t : String) : Nat :=
  (t.data.filter (fun c => !(c.isAlphanum || c == '_' || pyIsSpace c))).length

/-- `special_chars / max(len(text), 1)`. -/
def qmSpecialShare (t : String) : Rat :=
  (qmSpecialCount t : Rat) / ((max t.length 1 : Nat) : Rat)

/-- The `passed_filters` list of `assess_quality`, in evaluation order. -/
def qmPassedFilters (t : String) : List String :=
  (if 50 ≤ t.length then ["minimum_length"] else []) ++
  (if 10 ≤ qmWordCount t then ["minimum_words"] else []) ++
  (if 1/10 < qmCharDiversity t then ["char_diversity"] else []) ++
  (if pyWords t.data ≠ [] ∧ qmRepetition t < 3/10 then ["low_repetition"] else []) ++
  (if qmSpecialShare t < 3/10 then ["reasonable_special_chars"] else [])

/-- The `failed_filters` list of `assess_quality`, in evaluation order. Note
the repetition filter is only evaluated when the word list is nonempty, and
its failure is recorded under a different name than its success. -/
def qmFailedFilters (t : String) : List String :=
  (if 50 ≤ t.length then [] else ["minimum_length"]) ++
  (if 10 ≤ qmWordCount t then [] else ["minimum_words"]) ++
  (if 1/10 < qmCharDiversity t then [] else ["char_diversity"]) ++
  (if pyWords t.data ≠ [] ∧ ¬(qmRepetition t < 3/10) then ["high_repetition"] else []) ++
  (if qmSpecialShare t < 3/10 then [] else ["excessive_special_chars"])

/-- The `quality_metrics` dictionary of `assess_quality`, in insertion
order. -/
def qmMetrics (t : String) : List (String × Rat) :=
  [("length", (t.length : Rat)), ("word_count", (qmWordCount t : Rat)),
   ("char_count", (qmCharCount t : Rat)),
   ("char_diversity", pyRound 3 (qmCharDiversity t))] ++
  (if pyWords t.data ≠ [] then [("repetition_ratio", pyRound 3 (qmRepetition t))] else []) ++
  [("special_char_ratio", pyRound 3 (qmSpecialShare t))]

/-- The quality score before final rounding: `100 * passed / (passed+failed)`
plus the two 5-point bonuses, capped at 100. -/
def qmRawScore (t : String) : Rat :=
  let passed := (qmPassedFilters t).length
  let failed := (qmFailedFilters t).length
  let base : Rat :=
    if 0 < passed + failed then ((passed : Rat) / ((passed + failed : Nat) : Rat)) * 100
    else 0
  let bonusWords : Rat := if 100 < qmWordCount t then 5 else 0
  let bonusDiversity : Rat := if 3/10 < qmCharDiversity t then 5 else 0
  min 100 (base + bonusWords + bonusDiversity)

/-- Result of `TextCurator.assess_quality`. The `is_high_quality` key is only
present in the non-empty-input branch of the source, hence an `Option`
field. -/
structure QualityResult where
  quality_score : Rat
  quality_metrics : List (String × Rat)
  passed_filters : List String
  failed_filters : List String
  is_high_quality : Option Bool
deriving DecidableEq, Repr

/-- `TextCurator.assess_quality`. -/
def assessQuality (t : String) : QualityResult :=
  if t = "" then
    { quality_score := 0, quality_metrics := [], passed_filters := []
      failed_filters := [], is_high_quality := none }
  else
    { quality_score := pyRound 2 (qmRawScore t)
      quality_metrics := qmMetrics t
      passed_filters := qmPassedFilters t
      failed_filters := qmFailedFilters t
      is_high_quality := some (decide (70 ≤ qmRawScore t)) }

/-! ## `TextCurator.detect_language`

The `langdetect` library is an external capability; its availability flag
(the module-level `LANGDETECT_AVAILABLE`) and the detector itself (the
`detect`/`detect_langs` pair inside the `try` block, which may raise) are
explicit parameters of the embedding. -/

/-- Abstract detector: for a text, either raises (modelled by `.error`) or
returns the primary language together with the `detect_langs` probability
list. -/
def LangDetector : Type := String → Except String (String × List (String × Rat))

/-- Result of `TextCurator.detect_language`; each `Option` field is a dict
key present only on some branches of the source. -/
structure LangResult where
  language : String
  confidence : Rat
  reason : Option String := none
  all_languages : Option (List (String × Rat)) := none
  error : Option String := none
  available : Option Bool := none
deriving DecidableEq, Repr

/-- `TextCurator.detect_language`. -/
def detectLanguage (langdetectAvailable : Bool) (det : LangDetector) (t : String) :
    LangResult :=
  if !langdetectAvailable then
    { language := "unknown", confidence := 0, available := some false }
  else if t = "" ∨ t.length < 10 then
    { language := "unknown", confidence := 0, reason := some "text_too_short" }
  else
    match det t with
    | .ok (primary, probs) =>
      { language := primary
        confidence := pyRound 3 ((probs.head?.map Prod.snd).getD 0)
        all_languages := some ((probs.take 3).map (fun p => (p.1, pyRound 3 p.2)))
        available := some true }
    | .error e =>
      { language := "unknown", confidence := 0, error := some e
        available := some true }

/-! ## `TextCurator.deduplicate_texts`

The sentence-transformers capability is external: the module-level
availability flag and the loaded embedding model are explicit parameters.
The model's `encode` and the numpy cosine-similarity threshold test are
abstracted as functions of the model (floating-point numerics are out of
scope for this core). `hashlib.md5(...).hexdigest()` is modelled as an
injective content hash. -/

/-- Model of `hashlib.md5(text.encode("utf-8")).hexdigest()` as an injective
content hash. -/
def md5hex (s : String) : String := s

/-- An available embedding model: `encode` maps the text list to the
embedding array; `simGE e1 e2` decides `cosine_similarity(e1, e2) ≥ 0.95`. -/
structure EmbModel where
  encode : List String → List (List Rat)
  simGE : List Rat → List Rat → Bool

/-- Result of `TextCurator.deduplicate_texts`; the `method` key is absent in
the empty-input branch of the source. -/
structure DedupResult where
  deduplicated_texts : List String
  original_count : Nat
  deduplicated_count : Nat
  removed_count : Nat
  duplicates : List String
  method : Option String
deriving DecidableEq, Repr

/-- The `exact` branch loop: first occurrence of each hash is kept in input
order, later occurrences are collected as duplicates. -/
def dedupExactAux (seen : List String) : List String → (List String × List String)
  | [] => ([], [])
  | t :: rest =>
    if md5hex t ∈ seen then
      let r := dedupExactAux seen rest
      (r.1, t :: r.2)
    else
      let r := dedupExactAux (md5hex t :: seen) rest
      (t :: r.1, r.2)

/-- The full result dictionary of the `exact` branch (also the target of the
source's fallback calls `self.deduplicate_texts(texts, method="exact")`,
which on nonempty input reduce to exactly this). -/
def dedupExactResult (texts : List String) : DedupResult :=
  let r := dedupExactAux [] texts
  { deduplicated_texts := r.1
    original_count := texts.length
    deduplicated_count := r.1.length
    removed_count := texts.length - r.1.length
    duplicates := r.2
    method := some "exact" }

/-- Inner loop of the `fuzzy` branch: scan the already-kept list with index
`j`, skipping indices in `seen_indices`, and report whether some kept entry's
embedding is similar to embedding `i`. (As in the source, `j` indexes the
kept list but selects from the embeddings of the original list.) -/
def fuzzyIsDup (m : EmbModel) (embs : List (List Rat)) (i : Nat) (seen : List Nat) :
    Nat → List String → Bool
  | _, [] => false
  | j, _ :: rest =>
    if j ∈ seen then fuzzyIsDup m embs i seen (j + 1) rest
    else if m.simGE (embs.getD i []) (embs.getD j []) then true
    else fuzzyIsDup m embs i seen (j + 1) rest

/-- Outer loop of the `fuzzy` branch over the original texts with index `i`,
returning (kept, duplicates). -/
def fuzzyLoop (m : EmbModel) (embs : List (List Rat)) (i : Nat) (seen : List Nat)
    (ded dups : List String) : List String → (List String × List String)
  | [] => (ded, dups)
  | text :: rest =>
    if i ∈ seen then fuzzyLoop m embs (i + 1) seen ded dups rest
    else if fuzzyIsDup m embs i seen 0 ded then
      fuzzyLoop m embs (i + 1) seen ded (dups ++ [text]) rest
    else fuzzyLoop m embs (i + 1) (seen ++ [i]) (ded ++ [text]) dups rest

/-- `TextCurator.deduplicate_texts`. -/
def deduplicateTexts (stAvailable : Bool) (model : Option EmbModel)
    (texts : List String) (method : String) : DedupResult :=
  if texts = [] then
    { deduplicated_texts := [], original_count := 0, deduplicated_count := 0
      removed_count := 0, duplicates := [], method := none }
  else if method = "exact" then dedupExactResult texts
  else if method = "fuzzy" && stAvailable then
    match model with
    | some m =>
      let embs := m.encode texts
      let r := fuzzyLoop m embs 0 [] [] [] texts
      { deduplicated_texts := r.1
        original_count := texts.length
        deduplicated_count := r.1.length
        removed_count := texts.length - r.1.length
        duplicates := r.2
        method := some "fuzzy" }
    | none => dedupExactResult texts
  else dedupExactResult texts

/-! ## Data model of the comparator and merger

One engine's output dictionary (`RawExtraction` in the specification). Keys
the code probes with `in`/truthiness distinctions are `Option` fields; keys
read only through `.get(key, default)` where absence and the default value
are indistinguishable are plain fields with the default as the empty value. -/

/-- One page/slide sub-record; only its `text` is consumed by the core. -/
structure Page where
  text : String := ""
deriving DecidableEq, Repr

/-- One sheet sub-record: rows of cells. Cell values are modelled as
strings. -/
structure Sheet where
  data : List (List String) := []
deriving DecidableEq, Repr

/-- A tabular extract: rows of cells. -/
abbrev PyTable := List (List String)

/-- One engine's result dictionary. `error` is `Option (Option String)`:
`none` = key absent, `some none` = key present holding `None`,
`some (some s)` = key present holding a string. -/
structure RawExtraction where
  parser : Option String := none
  processor : Option String := none
  text : String := ""
  pages : List Page := []
  sheets : List Sheet := []
  slides : List Page := []
  tables : List PyTable := []
  metadata : Option (List (String × String)) := none
  error : Option (Option String) := none
  processing_time : Option Rat := none
deriving DecidableEq, Repr

/-! ## JSON stringification of sheet data

`json.dumps([sheet.get("data", []) for sheet in sheets])` with the default
separators; only string escaping for quote and backslash is modelled (the
cells exercised here contain neither). -/

/-- Escape one character for a JSON string literal. -/
def jsonEscapeChar (c : Char) : List Char :=
  if c = '\\' then ['\\', '\\'] else if c = '"' then ['\\', '"'] else [c]

/-- A JSON string literal. -/
def jsonStr (s : String) : String :=
  String.mk ('"' :: s.data.flatMap jsonEscapeChar ++ ['"'])

/-- A JSON array with the default `", "` separator. -/
def jsonArr (items : List String) : String :=
  "[" ++ String.intercalate ", " items ++ "]"

/-- `json.dumps` of the sheets' data lists. -/
def sheetsDump (sheets : List Sheet) : String :=
  jsonArr (sheets.map (fun sh => jsonArr (sh.data.map (fun row => jsonArr (row.map jsonStr)))))

/-! ## `ResultComparator` -/

/-- The text-extraction preamble of `compare_results`: prefer `text`, else
join the pages' texts with newlines, else JSON-stringify the sheets' data
(each fallback is tried only while the accumulated text is still empty). -/
def extractText (r : RawExtraction) : String :=
  let t0 := r.text
  let t1 := if t0 = "" ∧ r.pages ≠ [] then
      String.intercalate "\n" (r.pages.map Page.text)
    else t0
  if t1 = "" ∧ r.sheets ≠ [] then sheetsDump r.sheets else t1

/-- `result.get("parser") or result.get("processor", dflt)`: the `parser`
value when present and truthy (nonempty), else the `processor` value when
that key is present, else the default. -/
def procName (dflt : String) (r : RawExtraction) : String :=
  match r.parser with
  | some p => if p ≠ "" then p else r.processor.getD dflt
  | none => r.processor.getD dflt

/-- One per-engine metric row (`Metric` in the specification). -/
structure Metric where
  processor : String
  text_length : Nat
  word_count : Nat
  has_errors : Bool
  has_tables : Bool
  has_metadata : Bool
  processing_time : Rat
deriving DecidableEq, Repr

/-- The metric dictionary computed for result number `i` with extracted text
`text`. -/
def mkMetric (i : Nat) (r : RawExtraction) (text : String) : Metric :=
  { processor := procName ("processor_" ++ toString i) r
    text_length := text.length
    word_count := if text ≠ "" then (pyWords text.data).length else 0
    has_errors := r.error.isSome
    has_tables := r.tables ≠ [] ∨ r.sheets ≠ []
    has_metadata := match r.metadata with | some m => m ≠ [] | none => false
    processing_time := r.processing_time.getD 0 }

/-- The metric loop of `compare_results` (`for i, (result, text) in
enumerate(zip(results, texts))`). -/
def buildMetricsGo (i : Nat) : List RawExtraction → List Metric
  | [] => []
  | r :: rest => mkMetric i r (extractText r) :: buildMetricsGo (i + 1) rest

/-- All metric rows, in input order. -/
def buildMetrics (results : List RawExtraction) : List Metric :=
  buildMetricsGo 0 results

/-- `ResultComparator._generate_recommendations`. (`max` of the text lengths
is only taken on nonempty metric lists at the call site; the empty case is
defaulted to 0 here where Python would raise.) -/
def generateRecommendations (metrics : List Metric) : List String :=
  let maxText := ((metrics.map Metric.text_length).max?).getD 0
  let r1 : List String :=
    match metrics.find? (fun m => m.text_length = maxText) with
    | some m =>
      if m.processor ≠ "" then
        ["'" ++ m.processor ++ "' extracted the most text (" ++ toString maxText ++
          " characters)"]
      else []
    | none => []
  let errNames := (metrics.filter Metric.has_errors).map Metric.processor
  let r2 : List String :=
    if errNames ≠ [] then
      ["Warning: The following processors encountered errors: " ++
        String.intercalate ", " errNames]
    else []
  let tabNames := (metrics.filter Metric.has_tables).map Metric.processor
  let r3 : List String :=
    if tabNames ≠ [] then
      ["For documents with tables, consider using: " ++ String.intercalate ", " tabNames]
    else []
  let metaNames := (metrics.filter Metric.has_metadata).map Metric.processor
  let r4 : List String :=
    if metaNames ≠ [] then
      ["For document metadata extraction, consider using: " ++
        String.intercalate ", " metaNames]
    else []
  r1 ++ r2 ++ r3 ++ r4

/-- The score of `_find_best_processor`:
`text_length/1000 + 10·has_tables + 5·has_metadata − 50·has_errors`. -/
def scoreMetric (m : Metric) : Rat :=
  (m.text_length : Rat) / 1000 + (if m.has_tables then 10 else 0) +
    (if m.has_metadata then 5 else 0) - (if m.has_errors then 50 else 0)

/-- One entry of the scored list (`ScoredResult` in the specification). -/
structure ScoredEntry where
  processor : String
  score : Rat
  metrics : Metric
deriving DecidableEq, Repr

/-- Stable insertion into a list sorted by descending score: an element
passes over strictly greater scores and lands before equal ones, so sorting
preserves the input order of equal-score entries, exactly like Python's
stable `list.sort(key=..., reverse=True)`. -/
def insertScored (a : ScoredEntry) : List ScoredEntry → List ScoredEntry
  | [] => [a]
  | b :: rest => if a.score < b.score then b :: insertScored a rest else a :: b :: rest

/-- Stable sort by descending score (any stable sort computes the same list
as Python's stable sort under the same key). -/
def sortScoredDesc : List ScoredEntry → List ScoredEntry
  | [] => []
  | a :: rest => insertScored a (sortScoredDesc rest)

/-- `ResultComparator._find_best_processor`: score every metric row, sort by
descending score, return the top entry; `none` models the `{}` returned for
an empty metric list. -/
def findBestProcessor (metrics : List Metric) : Option ScoredEntry :=
  if metrics = [] then none
  else
    let scored := metrics.map (fun m => ScoredEntry.mk m.processor (scoreMetric m) m)
    (sortScoredDesc scored).head?

/-- The comparison dictionary built by `compare_results` on nonempty input
(`ComparisonReport` in the specification). -/
structure ComparisonReport where
  total_processors : Nat
  processors : List String
  comparison_metrics : List Metric
  recommendations : List String
  best_processor : Option ScoredEntry
deriving DecidableEq, Repr

/-- `compare_results` either returns a bare `{"error": ...}` dictionary or a
full report. -/
inductive ComparisonOutcome where
  | failed (msg : String)
  | report (rep : ComparisonReport)
deriving DecidableEq, Repr

/-- `ResultComparator.compare_results`. -/
def compareResults (results : List RawExtraction) : ComparisonOutcome :=
  if results = [] then .failed "No results to compare"
  else
    let metrics := buildMetrics results
    .report
      { total_processors := results.length
        processors := results.map (procName "unknown")
        comparison_metrics := metrics
        recommendations := generateRecommendations metrics
        best_processor := findBestProcessor metrics }

/-! ## `EnsembleProcessor._combine_results` -/

/-- An element of the merged `all_tables` list: the source extends one list
with both raw tables and sheet dictionaries. -/
inductive TableItem where
  | table (t : PyTable)
  | sheet (s : Sheet)
deriving DecidableEq, Repr

/-- The merged dictionary (`MergedResult` in the specification). -/
structure MergedResult where
  ensemble_result : Bool
  source_results : Nat
  combined_text : String
  combined_metadata : List (String × String)
  all_tables : List TableItem
  all_pages : List Page
deriving DecidableEq, Repr

/-- `_combine_results` either returns a bare `{"error": ...}` dictionary (on
empty input) or the merged dictionary. -/
inductive CombineOutcome where
  | failed (msg : String)
  | ok (m : MergedResult)
deriving DecidableEq, Repr

/-- The text-collection loop of `_combine_results`: the truthy `text` fields,
in input order. -/
def collectTexts : List RawExtraction → List String
  | [] => []
  | r :: rest => if r.text ≠ "" then r.text :: collectTexts rest else collectTexts rest

/-- Python `dict` assignment `d[k] = v`: update in place when the key exists
(keeping its position), append otherwise. -/
def dictSet (d : List (String × String)) (k v : String) : List (String × String) :=
  if d.any (fun p => p.1 = k) then
    d.map (fun p => if p.1 = k then (k, v) else p)
  else d ++ [(k, v)]

/-- Python `dict.update`: later entries win on key collision. -/
def dictUpdate (d entries : List (String × String)) : List (String × String) :=
  entries.foldl (fun acc p => dictSet acc p.1 p.2) d

/-- `EnsembleProcessor._combine_results`. -/
def combineResults (results : List RawExtraction) : CombineOutcome :=
  if results = [] then .failed "No results to combine"
  else
    .ok
      { ensemble_result := true
        source_results := results.length
        combined_text := String.intercalate "\n\n---\n\n" (collectTexts results)
        combined_metadata :=
          results.foldl
            (fun acc r => match r.metadata with | some m => dictUpdate acc m | none => acc) []
        all_tables :=
          results.foldl
            (fun acc r => acc ++ r.tables.map TableItem.table ++ r.sheets.map TableItem.sheet) []
        all_pages := results.foldl (fun acc r => acc ++ r.pages ++ r.slides) [] }

/-! ## Supporting lemmas -/

theorem collectTexts_eq_filter (results : List RawExtraction) :
    collectTexts results = (results.map RawExtraction.text).filter (fun s => s ≠ "") := by
  induction results with
  | nil => rfl
  | cons r rest ih =>
    by_cases h : r.text = "" <;> simp [collectTexts, h, ih]

theorem buildMetricsGo_map_has_errors (i : Nat) (results : List RawExtraction) :
    (buildMetricsGo i results).map Metric.has_errors =
      results.map (fun r => r.error.isSome) := by
  induction results generalizing i with
  | nil => rfl
  | cons r rest ih => simp [buildMetricsGo, mkMetric, ih]

theorem string_ne_empty_length_pos {t : String} (h : t ≠ "") : 0 < t.length := by
  rcases t with ⟨data⟩
  cases data with
  | nil => exact absurd rfl h
  | cons c rest => simp [String.length]

/-! ## Claim C8 -/

/-- C8 counterexample: on the empty list `compare_results` does return a bare
structured error value, but its message is `"No results to compare"`, not the
`"no results"` stated by the claim. -/
theorem C8_counterexample :
    compareResults [] = .failed "No results to compare" ∧
      "No results to compare" ≠ "no results" := by
  constructor
  · rfl
  · decide

/-- C8 (amended): `compare_results` applied to the empty list of results
returns the structured value `{error: "No results to compare"}` with no
further fields, and never raises an exception (the embedded function is total
and the error constructor carries only the message). -/
theorem C8_amended : compareResults [] = .failed "No results to compare" := rfl

/-! ## Claim C9 -/

/-- C9: for every non-empty sequence of results, the merge's `combined_text`
equals all non-empty `text` fields joined with the separator
`"\n\n---\n\n"`, in input order. -/
theorem C9_combined_text (results : List RawExtraction) (h : results ≠ []) :
    ∃ m, combineResults results = .ok m ∧
      m.combined_text =
        String.intercalate "\n\n---\n\n"
          ((results.map RawExtraction.text).filter (fun s => s ≠ "")) := by
  unfold combineResults
  rw [if_neg h]
  exact ⟨_, rfl, by simp only [collectTexts_eq_filter]⟩

/-- C9 witness: merging `[{text:"A"}, {text:"B"}]` yields `combined_text`
`"A\n\n---\n\nB"`. -/
theorem C9_witness :
    (([{ text := "A" }, { text := "B" }] : List RawExtraction) ≠ []) ∧
      ∃ m, combineResults [{ text := "A" }, { text := "B" }] = .ok m ∧
        m.combined_text = "A\n\n---\n\nB" := by
  refine ⟨by simp, ?_⟩
  obtain ⟨m, hm, ht⟩ :=
    C9_combined_text [{ text := "A" }, { text := "B" }] (by simp)
  exact ⟨m, hm, by rw [ht]; rfl⟩

/-! ## Claim C10 -/

/-- C10: in `compare_results`, a result is classified as errored exactly when
its mapping contains the `error` key, whatever value that key holds (`None`
and `""` included), and an errored metric's score is the base score minus
50. -/
theorem C10_has_errors_iff_key (results : List RawExtraction) (h : results ≠ []) :
    ∃ rep, compareResults results = .report rep ∧
      rep.comparison_metrics.map Metric.has_errors =
        results.map (fun r => r.error.isSome) ∧
      ∀ m ∈ rep.comparison_metrics,
        scoreMetric m =
          ((m.text_length : Rat) / 1000 + (if m.has_tables then 10 else 0) +
            (if m.has_metadata then 5 else 0)) - (if m.has_errors then 50 else 0) := by
  unfold compareResults
  rw [if_neg h]
  refine ⟨_, rfl, buildMetricsGo_map_has_errors 0 results, ?_⟩
  intro m _
  unfold scoreMetric
  ring

/-- C10 witness: with three concrete results carrying `error=None`,
`error=""` and no `error` key, the metric rows flag exactly the first two. -/
theorem C10_witness :
    (([{ error := some none }, { error := some (some "") }, { text := "ok" }] :
        List RawExtraction) ≠ []) ∧
      ∃ rep,
        compareResults
            [{ error := some none }, { error := some (some "") }, { text := "ok" }] =
          .report rep ∧
        rep.comparison_metrics.map Metric.has_errors = [true, true, false] := by
  refine ⟨by simp, ?_⟩
  obtain ⟨rep, hrep, hmap, -⟩ :=
    C10_has_errors_iff_key
      [{ error := some none }, { error := some (some "") }, { text := "ok" }] (by simp)
  exact ⟨rep, hrep, by rw [hmap]; rfl⟩

/-! ## Claim C7 -/

/-- C7: `deduplicate_texts` with any method other than `"exact"` and
`"fuzzy"`, and with method `"fuzzy"` whenever the embedding capability is
unavailable (library missing or model not loaded), returns exactly the same
result as method `"exact"` on the same list. -/
theorem C7_fallback_eq_exact (stAvailable : Bool) (model : Option EmbModel)
    (texts : List String) (method : String) (hne : method ≠ "exact")
    (hfuzzy : method = "fuzzy" → stAvailable = false ∨ model = none) :
    deduplicateTexts stAvailable model texts method =
      deduplicateTexts stAvailable model texts "exact" := by
  unfold deduplicateTexts
  by_cases he : texts = []
  · rw [if_pos he, if_pos he]
  · rw [if_neg he, if_neg he, if_neg hne, if_pos rfl]
    by_cases hf : method = "fuzzy"
    · subst hf
      rcases hfuzzy rfl with hst | hm
      · subst hst
        rw [if_neg (by simp)]
      · subst hm
        by_cases hst : stAvailable
        · subst hst
          rw [if_pos (by simp)]
        · rw [if_neg (by simp_all)]
    · rw [if_neg (by simp [hf])]

/-- C7 witness: with the library flag set but no loaded model, method
`"semantic"` coincides with method `"exact"` on a concrete list. -/
theorem C7_witness :
    (("semantic" : String) ≠ "exact") ∧
      deduplicateTexts true none ["a", "b", "a"] "semantic" =
        deduplicateTexts true none ["a", "b", "a"] "exact" := by
  refine ⟨by decide, ?_⟩
  exact C7_fallback_eq_exact true none ["a", "b", "a"] "semantic" (by decide)
    (fun _ => Or.inr rfl)

/-! ## Claim C5 -/

/-- C5 counterexample: when the `langdetect` capability is unavailable, a
5-character text yields `unknown`/0 with `available: false` and no `reason`
key at all, contradicting the claim's unconditional `reason:
"text_too_short"`. -/
theorem C5_counterexample :
    detectLanguage false (fun _ => .error "unused") "hello" =
        { language := "unknown", confidence := 0, available := some false } ∧
      (detectLanguage false (fun _ => .error "unused") "hello").reason ≠
        some "text_too_short" := by
  constructor
  · rfl
  · decide

/-- C5 (amended): when the `langdetect` capability is available, every text
shorter than 10 characters yields language `"unknown"`, confidence 0 and
reason `"text_too_short"`, and the underlying detector is never invoked (the
result is the same for every detector); when the capability is unavailable
the short-text result instead carries `available: false` and no reason. -/
theorem C5_amended (det : LangDetector) (t : String) (h : t.length < 10) :
    detectLanguage true det t =
      { language := "unknown", confidence := 0, reason := some "text_too_short" } := by
  unfold detectLanguage
  rw [if_neg (by simp), if_pos (Or.inr h)]

/-- C5 witness: a concrete 5-character text with a concrete (raising)
detector. -/
theorem C5_witness :
    ("hello" : String).length < 10 ∧
      detectLanguage true (fun _ => .error "boom") "hello" =
        { language := "unknown", confidence := 0, reason := some "text_too_short" } :=
  ⟨by decide, C5_amended (fun _ => .error "boom") "hello" (by decide)⟩

/-! ## Claim C6 -/

/-- C6 counterexample: for the empty text the `cleaning_stats` dictionary has
no `reduction_percent` key at all (in particular it does not equal 0). -/
theorem C6_counterexample :
    (cleanText "").cleaning_stats.reduction_percent = none ∧
      (cleanText "").cleaning_stats.reduction_percent ≠ some 0 := by
  constructor
  · rfl
  · simp [cleanText]

/-- C6 (amended): for every non-empty text the returned `cleaning_stats`
contains `reduction_percent = round(removed_chars / original_length * 100,
2)`; for the empty text `clean_text` returns stats `{original_length: 0,
cleaned_length: 0, removed_chars: 0}` with the `reduction_percent` key
absent. -/
theorem C6_amended (t : String) :
    (t = "" →
      (cleanText t).cleaning_stats =
        { original_length := 0, cleaned_length := 0, removed_chars := 0
          reduction_percent := none }) ∧
    (t ≠ "" →
      (cleanText t).cleaning_stats.reduction_percent =
        some (pyRound 2
          (((cleanText t).cleaning_stats.removed_chars : Rat) /
            ((cleanText t).cleaning_stats.original_length : Rat) * 100))) := by
  constructor
  · intro h
    subst h
    rfl
  · intro h
    unfold cleanText
    rw [if_neg h]
    simp only []
    rw [if_pos (string_ne_empty_length_pos h)]

/-- C6 witness: the two branches at the concrete inputs `""` and `"ab"`. -/
theorem C6_witness :
    (cleanText "").cleaning_stats =
        { original_length := 0, cleaned_length := 0, removed_chars := 0
          reduction_percent := none } ∧
      (("ab" : String) ≠ "") ∧
      (cleanText "ab").cleaning_stats.reduction_percent =
        some (pyRound 2
          (((cleanText "ab").cleaning_stats.removed_chars : Rat) /
            ((cleanText "ab").cleaning_stats.original_length : Rat) * 100)) :=
  ⟨(C6_amended "").1 rfl, by decide, (C6_amended "ab").2 (by decide)⟩

/-! ## Integrality of the quality score -/

theorem ratFloor_intCast (m : Int) : ((m : Rat)).floor = m := by
  have h : ((m : Rat)).floor = ⌊(m : Rat)⌋ := rfl
  rw [h, Int.floor_intCast]

theorem roundHalfEven_intCast (m : Int) : roundHalfEven (m : Rat) = m := by
  unfold roundHalfEven
  simp only [ratFloor_intCast]
  norm_num

theorem pyRound_natCast (d : Nat) (n : Nat) : pyRound d (n : Rat) = (n : Rat) := by
  unfold pyRound
  have h : ((n : Rat) * 10 ^ d) = (((n * 10 ^ d : Nat) : Int) : Rat) := by push_cast; ring
  rw [h, roundHalfEven_intCast]
  have hz : ((10 : Rat) ^ d) ≠ 0 := by positivity
  push_cast
  exact mul_div_cancel_right₀ _ hz

theorem qm_total (t : String) :
    (qmPassedFilters t).length + (qmFailedFilters t).length =
      if pyWords t.data = [] then 4 else 5 := by
  unfold qmPassedFilters qmFailedFilters
  split_ifs <;> simp_all

theorem qm_total_pos (t : String) :
    0 < (qmPassedFilters t).length + (qmFailedFilters t).length := by
  have h := qm_total t
  split_ifs at h <;> omega

theorem qmRawScore_eq (t : String) :
    qmRawScore t =
      min 100 (((qmPassedFilters t).length : Rat) /
          (((qmPassedFilters t).length + (qmFailedFilters t).length : Nat) : Rat) * 100 +
        (if 100 < qmWordCount t then 5 else 0) +
        (if 3 / 10 < qmCharDiversity t then 5 else 0)) := by
  unfold qmRawScore
  simp only [if_pos (qm_total_pos t)]

theorem qmRawScore_natCast (t : String) : ∃ n : Nat, qmRawScore t = (n : Rat) := by
  rw [qmRawScore_eq]
  have htot := qm_total t
  have hb1 : (if 100 < qmWordCount t then (5 : Rat) else 0) =
      ((if 100 < qmWordCount t then 5 else 0 : Nat) : Rat) := by
    split_ifs <;> simp
  have hb2 : (if 3 / 10 < qmCharDiversity t then (5 : Rat) else 0) =
      ((if 3 / 10 < qmCharDiversity t then 5 else 0 : Nat) : Rat) := by
    split_ifs <;> simp
  rw [hb1, hb2]
  by_cases hw : pyWords t.data = []
  · rw [if_pos hw] at htot
    refine ⟨min 100 (25 * (qmPassedFilters t).length +
      ((if 100 < qmWordCount t then 5 else 0) +
        (if 3 / 10 < qmCharDiversity t then 5 else 0))), ?_⟩
    rw [htot]
    have hbase : ((qmPassedFilters t).length : Rat) / ((4 : Nat) : Rat) * 100 =
        ((25 * (qmPassedFilters t).length : Nat) : Rat) := by
      push_cast
      ring
    rw [hbase]
    push_cast [Nat.cast_min]
    ring_nf
  · rw [if_neg hw] at htot
    refine ⟨min 100 (20 * (qmPassedFilters t).length +
      ((if 100 < qmWordCount t then 5 else 0) +
        (if 3 / 10 < qmCharDiversity t then 5 else 0))), ?_⟩
    rw [htot]
    have hbase : ((qmPassedFilters t).length : Rat) / ((5 : Nat) : Rat) * 100 =
        ((20 * (qmPassedFilters t).length : Nat) : Rat) := by
      push_cast
      ring
    rw [hbase]
    push_cast [Nat.cast_min]
    ring_nf

theorem pyRound_qmRawScore (t : String) : pyRound 2 (qmRawScore t) = qmRawScore t := by
  obtain ⟨n, hn⟩ := qmRawScore_natCast t
  rw [hn, pyRound_natCast]

/-! ## Claim C4 -/

/-- C4 counterexample: for the empty text the result of `assess_quality` has
no `is_high_quality` key at all, so it is not equal to
`quality_score ≥ 70` (which would be `false`) there. -/
theorem C4_counterexample :
    (assessQuality "").is_high_quality = none ∧
      ∀ b : Bool, (assessQuality "").is_high_quality ≠ some b := by
  constructor
  · rfl
  · intro b
    simp [assessQuality]

/-- C4 (amended): for every non-empty text, `assess_quality` returns
`is_high_quality` equal to `quality_score ≥ 70`, with the score equal to
`100·passed/(passed+failed)` plus 5 if the word count exceeds 100 plus 5 if
the character diversity exceeds 0.30, capped at 100; the empty text yields
score 0 with no filters evaluated and the result omits the
`is_high_quality` key. -/
theorem C4_amended (t : String) :
    (t = "" → assessQuality t =
      { quality_score := 0, quality_metrics := [], passed_filters := []
        failed_filters := [], is_high_quality := none }) ∧
    (t ≠ "" →
      (assessQuality t).is_high_quality =
          some (decide (70 ≤ (assessQuality t).quality_score)) ∧
        (assessQuality t).quality_score =
          min 100
            (100 * ((assessQuality t).passed_filters.length : Rat) /
                (((assessQuality t).passed_filters.length +
                  (assessQuality t).failed_filters.length : Nat) : Rat) +
              (if 100 < qmWordCount t then 5 else 0) +
              (if 3 / 10 < qmCharDiversity t then 5 else 0))) := by
  constructor
  · intro h
    subst h
    rfl
  · intro h
    simp only [assessQuality, if_neg h, pyRound_qmRawScore]
    refine ⟨trivial, ?_⟩
    rw [qmRawScore_eq]
    congr 1
    ring

/-- C4 witness: the non-empty branch at the concrete input `"hi"`. -/
theorem C4_witness :
    (("hi" : String) ≠ "") ∧
      ((assessQuality "hi").is_high_quality =
          some (decide (70 ≤ (assessQuality "hi").quality_score)) ∧
        (assessQuality "hi").quality_score =
          min 100
            (100 * ((assessQuality "hi").passed_filters.length : Rat) /
                (((assessQuality "hi").passed_filters.length +
                  (assessQuality "hi").failed_filters.length : Nat) : Rat) +
              (if 100 < qmWordCount "hi" then 5 else 0) +
              (if 3 / 10 < qmCharDiversity "hi" then 5 else 0))) :=
  ⟨by decide, (C4_amended "hi").2 (by decide)⟩

/-! ## The best-processor selection -/

theorem mem_insertScored {x a : ScoredEntry} {l : List ScoredEntry} :
    x ∈ insertScored a l ↔ x = a ∨ x ∈ l := by
  induction l with
  | nil => simp [insertScored]
  | cons b rest ih =>
    unfold insertScored
    split_ifs with hb
    · simp only [List.mem_cons, ih]
      tauto
    · simp only [List.mem_cons]

theorem sortScoredDesc_head_max (l : List ScoredEntry) (h : l ≠ []) :
    ∃ e, (sortScoredDesc l).head? = some e ∧ e ∈ l ∧ ∀ x ∈ l, x.score ≤ e.score := by
  induction l with
  | nil => exact absurd rfl h
  | cons a rest ih =>
    by_cases hr : rest = []
    · subst hr
      exact ⟨a, rfl, List.mem_singleton.mpr rfl, by simp⟩
    · obtain ⟨e, he, hmem, hbound⟩ := ih hr
      obtain ⟨tail, htail⟩ : ∃ tl, sortScoredDesc rest = e :: tl := by
        cases hsort : sortScoredDesc rest with
        | nil => rw [hsort] at he; cases he
        | cons x tl =>
          rw [hsort] at he
          simp only [List.head?_cons, Option.some.injEq] at he
          exact ⟨tl, by rw [he]⟩
      have hstep : sortScoredDesc (a :: rest) = insertScored a (e :: tail) := by
        unfold sortScoredDesc
        rw [htail]
      by_cases hlt : a.score < e.score
      · refine ⟨e, ?_, List.mem_cons_of_mem a hmem, ?_⟩
        · rw [hstep]
          unfold insertScored
          rw [if_pos hlt]
          rfl
        · intro x hx
          rcases List.mem_cons.mp hx with rfl | hx'
          · exact le_of_lt hlt
          · exact hbound x hx'
      · refine ⟨a, ?_, List.mem_cons_self a rest, ?_⟩
        · rw [hstep]
          unfold insertScored
          rw [if_neg hlt]
          rfl
        · intro x hx
          rcases List.mem_cons.mp hx with rfl | hx'
          · exact le_refl _
          · exact le_trans (hbound x hx') (not_lt.mp hlt)

theorem findBest_spec (metrics : List Metric) (h : metrics ≠ []) :
    ∃ e, findBestProcessor metrics = some e ∧ e.metrics ∈ metrics ∧
      e.score = scoreMetric e.metrics ∧ ∀ m ∈ metrics, scoreMetric m ≤ e.score := by
  unfold findBestProcessor
  rw [if_neg h]
  have hmap : metrics.map (fun m => ScoredEntry.mk m.processor (scoreMetric m) m) ≠ [] := by
    simpa using h
  obtain ⟨e, hhead, hmem, hbound⟩ := sortScoredDesc_head_max _ hmap
  obtain ⟨m0, hm0, hme⟩ := List.mem_map.mp hmem
  refine ⟨e, hhead, ?_, ?_, ?_⟩
  · rw [← hme]
    exact hm0
  · rw [← hme]
  · intro m hm
    have := hbound _ (List.mem_map_of_mem _ hm)
    simpa using this

/-! ## Claim C1 -/

/-- C1 (amended): on every non-empty result list, `compare_results` computes
metric rows for all results, errored ones included, and `best_processor` is
an entry of maximal score (`text_length/1000 + 10·tables + 5·metadata −
50·errors`) over all rows; errored results are penalized by 50 points but
never excluded, so the best entry may be an errored result even when a valid
one exists, and when every result is errored the top-scoring errored entry —
not an empty value — is returned. -/
theorem C1_amended (results : List RawExtraction) (h : results ≠ []) :
    ∃ rep e, compareResults results = .report rep ∧
      rep.best_processor = some e ∧
      e.metrics ∈ rep.comparison_metrics ∧
      e.score = scoreMetric e.metrics ∧
      ∀ m ∈ rep.comparison_metrics, scoreMetric m ≤ e.score := by
  unfold compareResults
  rw [if_neg h]
  have hbm : buildMetrics results ≠ [] := by
    cases results with
    | nil => exact absurd rfl h
    | cons r rest => simp [buildMetrics, buildMetricsGo]
  obtain ⟨e, he, hmem, hsc, hbound⟩ := findBest_spec _ hbm
  exact ⟨_, e, rfl, he, hmem, hsc, hbound⟩

/-- C1 witness: the amended statement at a concrete one-element list. -/
theorem C1_witness :
    (([{ text := "a" }] : List RawExtraction) ≠ []) ∧
      ∃ rep e, compareResults [{ text := "a" }] = .report rep ∧
        rep.best_processor = some e ∧
        e.metrics ∈ rep.comparison_metrics ∧
        e.score = scoreMetric e.metrics ∧
        ∀ m ∈ rep.comparison_metrics, scoreMetric m ≤ e.score :=
  ⟨by simp, C1_amended [{ text := "a" }] (by simp)⟩

/-- An errored extraction with 60000 characters of text: its score is
`60000/1000 − 50 = 10`. -/
def c1errored : RawExtraction :=
  { parser := some "engine_a", text := String.mk (List.replicate 60000 'a')
    error := some (some "boom") }

/-- A valid extraction with 2 characters of text: its score is `2/1000`. -/
def c1valid : RawExtraction := { parser := some "engine_b", text := "hi" }

theorem c1_score_errored :
    scoreMetric (mkMetric 0 c1errored (extractText c1errored)) = 10 := by
  have h1 : (mkMetric 0 c1errored (extractText c1errored)).text_length = 60000 := by
    show (extractText c1errored).length = 60000
    show (List.replicate 60000 'a').length = 60000
    exact List.length_replicate 60000 'a'
  unfold scoreMetric
  rw [h1]
  rw [show (mkMetric 0 c1errored (extractText c1errored)).has_tables = false from rfl]
  rw [show (mkMetric 0 c1errored (extractText c1errored)).has_metadata = false from rfl]
  rw [show (mkMetric 0 c1errored (extractText c1errored)).has_errors = true from rfl]
  norm_num

theorem c1_score_valid :
    scoreMetric (mkMetric 1 c1valid (extractText c1valid)) = 1 / 500 := by
  unfold scoreMetric
  rw [show (mkMetric 1 c1valid (extractText c1valid)).text_length = 2 from rfl]
  rw [show (mkMetric 1 c1valid (extractText c1valid)).has_tables = false from rfl]
  rw [show (mkMetric 1 c1valid (extractText c1valid)).has_metadata = false from rfl]
  rw [show (mkMetric 1 c1valid (extractText c1valid)).has_errors = false from rfl]
  norm_num

theorem c1_best :
    findBestProcessor (buildMetrics [c1errored, c1valid]) =
      some (ScoredEntry.mk (mkMetric 0 c1errored (extractText c1errored)).processor
        (scoreMetric (mkMetric 0 c1errored (extractText c1errored)))
        (mkMetric 0 c1errored (extractText c1errored))) := by
  unfold findBestProcessor
  rw [if_neg (by simp [buildMetrics, buildMetricsGo])]
  show (sortScoredDesc
    [ScoredEntry.mk (mkMetric 0 c1errored (extractText c1errored)).processor
        (scoreMetric (mkMetric 0 c1errored (extractText c1errored)))
        (mkMetric 0 c1errored (extractText c1errored)),
      ScoredEntry.mk (mkMetric 1 c1valid (extractText c1valid)).processor
        (scoreMetric (mkMetric 1 c1valid (extractText c1valid)))
        (mkMetric 1 c1valid (extractText c1valid))]).head? = _
  simp only [sortScoredDesc, insertScored]
  rw [if_neg (by
    show ¬ (scoreMetric (mkMetric 0 c1errored (extractText c1errored)) <
      scoreMetric (mkMetric 1 c1valid (extractText c1valid)))
    rw [c1_score_errored, c1_score_valid]
    norm_num)]
  rfl

/-- C1 counterexample: two concrete results, one errored with 60000
characters of text and one valid, on which `compare_results` selects the
errored result as `best_processor` even though a valid candidate exists (the
errored row also feeds `comparison_metrics` like any other row). -/
theorem C1_counterexample :
    ∃ rep e, compareResults [c1errored, c1valid] = .report rep ∧
      rep.best_processor = some e ∧
      e.metrics.has_errors = true ∧
      ∃ m ∈ rep.comparison_metrics, m.has_errors = false := by
  refine ⟨_, _, rfl, c1_best, rfl, ?_⟩
  refine ⟨mkMetric 1 c1valid (extractText c1valid), ?_, rfl⟩
  show _ ∈ buildMetrics [c1errored, c1valid]
  simp [buildMetrics, buildMetricsGo]

/-! ## Length bounds for the cleaning passes -/

theorem nfkcChar_ascii {c : Char} (h : c.toNat < 128) : nfkcChar c = [c] := by
  have h1 : c ≠ 'ﬁ' := fun hc => absurd h (by subst hc; decide)
  have h2 : c ≠ 'ﬂ' := fun hc => absurd h (by subst hc; decide)
  have h3 : c ≠ 'ﬃ' := fun hc => absurd h (by subst hc; decide)
  unfold nfkcChar
  rw [if_neg h1, if_neg h2, if_neg h3]

theorem nfkc_ascii {x : List Char} (h : ∀ c ∈ x, c.toNat < 128) : nfkc x = x := by
  induction x with
  | nil => rfl
  | cons c rest ih =>
    unfold nfkc at ih ⊢
    rw [List.flatMap_cons, nfkcChar_ascii (h c (List.mem_cons_self c rest)),
      ih (fun a ha => h a (List.mem_cons_of_mem c ha))]
    rfl

theorem wsCollapseAux_length (b : Bool) (x : List Char) :
    (wsCollapseAux b x).length ≤ x.length := by
  induction x generalizing b with
  | nil => simp [wsCollapseAux]
  | cons c rest ih =>
    unfold wsCollapseAux
    split_ifs
    · exact le_trans (ih true) (Nat.le_succ _)
    · simpa using ih true
    · simpa using ih false

theorem flushRun_length {d : Char} {m : Nat} {repl : List Char} (count : Nat)
    (h : repl.length < m) : (flushRun d m repl count).length ≤ count := by
  unfold flushRun
  split_ifs with hc
  · omega
  · simp

theorem collapseRunAux_length {d : Char} {m : Nat} {repl : List Char}
    (h : repl.length < m) (x : List Char) (count : Nat) :
    (collapseRunAux d m repl count x).length ≤ count + x.length := by
  induction x generalizing count with
  | nil => simpa using flushRun_length count h
  | cons c rest ih =>
    unfold collapseRunAux
    split_ifs
    · have := ih (count + 1)
      simp only [List.length_cons]
      omega
    · have h1 := @flushRun_length d m repl count h
      have h2 := ih 0
      simp only [List.length_append, List.length_cons]
      omega

theorem collapseRun_length {d : Char} {m : Nat} {repl : List Char}
    (h : repl.length < m) (x : List Char) :
    (collapseRun d m repl x).length ≤ x.length := by
  simpa using collapseRunAux_length h x 0

theorem urlRemove_length (x : List Char) : (urlRemove x).length ≤ x.length := by
  induction x using urlRemove.induct with
  | case1 x r hr ih =>
    unfold urlRemove
    split
    · rename_i r' hsome
      rw [hr] at hsome
      injection hsome with hrr
      subst hrr
      exact le_trans ih (le_of_lt (tryUrl_length hr))
    · rename_i hnone
      rw [hr] at hnone
      cases hnone
  | case2 hr hr2 =>
    unfold urlRemove
    simp [tryUrl]
  | case3 c rest hr hr2 ih =>
    unfold urlRemove
    split
    · rename_i r hsome
      rw [hr] at hsome
      cases hsome
    · simpa using ih

theorem flushTok_length (tok : List Char) : (flushTok tok).length ≤ tok.length := by
  unfold flushTok
  split_ifs <;> simp

theorem emailRemoveAux_length (acc x : List Char) :
    (emailRemoveAux acc x).length ≤ acc.length + x.length := by
  induction x generalizing acc with
  | nil =>
    unfold emailRemoveAux
    simpa using le_trans (flushTok_length acc.reverse) (by simp)
  | cons c rest ih =>
    unfold emailRemoveAux
    split_ifs
    · have h1 := flushTok_length acc.reverse
      have h2 := ih ([] : List Char)
      simp only [List.length_append, List.length_cons, List.length_reverse,
        List.length_nil] at h1 h2 ⊢
      omega
    · have := ih (c :: acc)
      simp only [List.length_cons] at this ⊢
      omega

theorem pyStrip_length (x : List Char) : (pyStrip x).length ≤ x.length := by
  unfold pyStrip
  calc ((x.dropWhile pyIsSpace).reverse.dropWhile pyIsSpace).reverse.length
      = ((x.dropWhile pyIsSpace).reverse.dropWhile pyIsSpace).length := by
        rw [List.length_reverse]
    _ ≤ (x.dropWhile pyIsSpace).reverse.length :=
        List.Sublist.length_le (List.dropWhile_sublist _)
    _ = (x.dropWhile pyIsSpace).length := by rw [List.length_reverse]
    _ ≤ x.length := List.Sublist.length_le (List.dropWhile_sublist _)

theorem cleanPipeline_length_ascii {x : List Char} (h : ∀ c ∈ x, c.toNat < 128) :
    (cleanPipeline x).length ≤ x.length := by
  unfold cleanPipeline
  rw [nfkc_ascii h]
  calc (pyStrip _).length
      ≤ _ := pyStrip_length _
    _ ≤ _ := collapseRun_length (by decide) _
    _ ≤ _ := emailRemoveAux_length [] _
    _ ≤ _ := by
        simpa using urlRemove_length _
    _ ≤ _ := collapseRun_length (by decide) _
    _ ≤ _ := collapseRun_length (by decide) _
    _ ≤ _ := collapseRun_length (by decide) _
    _ ≤ _ := List.length_filter_le _ _
    _ ≤ x.length := wsCollapseAux_length false x

/-! ## Claim C3 -/

/-- C3 counterexample: NFKC expands the single character `ﬁ` (U+FB01) to
`fi`, so cleaning the one-character text `"ﬁ"` yields a two-character
output: `cleaned_length > len(t)` and `removed_chars = -1 < 0`. -/
theorem C3_counterexample :
    (cleanText "ﬁ").cleaning_stats.original_length = 1 ∧
      (cleanText "ﬁ").cleaning_stats.cleaned_length = 2 ∧
      (cleanText "ﬁ").cleaning_stats.removed_chars = -1 := by
  have hp : cleanPipeline "ﬁ".data = ['f', 'i'] := by
    unfold cleanPipeline
    rw [show collapseRun '.' 4 ['.', '.', '.'] (collapseRun '?' 3 ['?'] (collapseRun '!' 3 ['!']
      ((wsCollapse (nfkc "ﬁ".data)).filter (fun c => !isCtrlRemoved c)))) = ['f', 'i'] from by
        decide]
    rw [urlRemove_eq_self (by decide)]
    decide
  refine ⟨rfl, ?_, ?_⟩
  · show (cleanPipeline "ﬁ".data).length = 2
    rw [hp]
    rfl
  · show (1 : Int) - ((cleanPipeline "ﬁ".data).length : Int) = -1
    rw [hp]
    decide

/-- C3 (amended): for every text whose characters are all ASCII (any
characters NFKC normalization leaves unchanged), the cleaned output is never
longer than the input: `cleaned_length ≤ len(t)` and `removed_chars ≥ 0`;
every pass after normalization only shrinks the text, so only NFKC expansion
can violate the bound. -/
theorem C3_amended (t : String) (h : ∀ c ∈ t.data, c.toNat < 128) :
    (cleanText t).cleaning_stats.cleaned_length ≤
        (cleanText t).cleaning_stats.original_length ∧
      0 ≤ (cleanText t).cleaning_stats.removed_chars := by
  by_cases he : t = ""
  · subst he
    exact ⟨le_refl 0, le_refl 0⟩
  · unfold cleanText
    rw [if_neg he]
    have hlen := cleanPipeline_length_ascii h
    refine ⟨hlen, ?_⟩
    show (0 : Int) ≤ (t.length : Int) - ((cleanPipeline t.data).length : Int)
    have hc : ((cleanPipeline t.data).length : Int) ≤ (t.length : Int) := by
      exact_mod_cast hlen
    omega

/-- C3 witness: the amended statement at the ASCII input `"abc"`. -/
theorem C3_witness :
    (∀ c ∈ ("abc" : String).data, c.toNat < 128) ∧
      ((cleanText "abc").cleaning_stats.cleaned_length ≤
          (cleanText "abc").cleaning_stats.original_length ∧
        0 ≤ (cleanText "abc").cleaning_stats.removed_chars) :=
  ⟨by decide, C3_amended "abc" (by decide)⟩

/-! ## Character provenance of the cleaning passes -/

theorem mem_wsCollapseAux {c : Char} {b : Bool} {x : List Char}
    (h : c ∈ wsCollapseAux b x) : c = ' ' ∨ (c ∈ x ∧ pyIsSpace c = false) := by
  induction x generalizing b with
  | nil => cases h
  | cons a rest ih =>
    unfold wsCollapseAux at h
    split_ifs at h with h1 h2
    · rcases ih h with hl | ⟨hm, hs⟩
      · exact Or.inl hl
      · exact Or.inr ⟨List.mem_cons_of_mem a hm, hs⟩
    · rcases List.mem_cons.mp h with rfl | h'
      · exact Or.inl rfl
      · rcases ih h' with hl | ⟨hm, hs⟩
        · exact Or.inl hl
        · exact Or.inr ⟨List.mem_cons_of_mem a hm, hs⟩
    · rcases List.mem_cons.mp h with rfl | h'
      · exact Or.inr ⟨List.mem_cons_self c rest, by simpa using h1⟩
      · rcases ih h' with hl | ⟨hm, hs⟩
        · exact Or.inl hl
        · exact Or.inr ⟨List.mem_cons_of_mem a hm, hs⟩

theorem mem_flushRun {c d : Char} {m count : Nat} {repl : List Char}
    (h : c ∈ flushRun d m repl count) : c ∈ repl ∨ c = d := by
  unfold flushRun at h
  split_ifs at h
  · exact Or.inl h
  · exact Or.inr (List.mem_replicate.mp h).2

theorem mem_collapseRunAux {c d : Char} {m count : Nat} {repl x : List Char}
    (h : c ∈ collapseRunAux d m repl count x) : c = d ∨ c ∈ repl ∨ c ∈ x := by
  induction x generalizing count with
  | nil =>
    unfold collapseRunAux at h
    rcases mem_flushRun h with h' | h'
    · exact Or.inr (Or.inl h')
    · exact Or.inl h'
  | cons a rest ih =>
    unfold collapseRunAux at h
    split_ifs at h with h1
    · rcases ih h with h' | h' | h'
      · exact Or.inl h'
      · exact Or.inr (Or.inl h')
      · exact Or.inr (Or.inr (List.mem_cons_of_mem a h'))
    · rcases List.mem_append.mp h with h' | h'
      · rcases mem_flushRun h' with h'' | h''
        · exact Or.inr (Or.inl h'')
        · exact Or.inl h''
      · rcases List.mem_cons.mp h' with rfl | h''
        · exact Or.inr (Or.inr (List.mem_cons_self c rest))
        · rcases ih h'' with h3 | h3 | h3
          · exact Or.inl h3
          · exact Or.inr (Or.inl h3)
          · exact Or.inr (Or.inr (List.mem_cons_of_mem a h3))

theorem mem_flushTok {c : Char} {tok : List Char} (h : c ∈ flushTok tok) : c ∈ tok := by
  unfold flushTok at h
  split_ifs at h
  · cases h
  · exact h

theorem mem_emailRemoveAux {c : Char} {acc x : List Char}
    (h : c ∈ emailRemoveAux acc x) : c ∈ acc ∨ c ∈ x := by
  induction x generalizing acc with
  | nil =>
    unfold emailRemoveAux at h
    exact Or.inl (by simpa using mem_flushTok h)
  | cons a rest ih =>
    unfold emailRemoveAux at h
    split_ifs at h with h1
    · rcases List.mem_append.mp h with h' | h'
      · exact Or.inl (by simpa using mem_flushTok h')
      · rcases List.mem_cons.mp h' with rfl | h''
        · exact Or.inr (List.mem_cons_self c rest)
        · rcases ih h'' with h3 | h3
          · cases h3
          · exact Or.inr (List.mem_cons_of_mem a h3)
    · rcases ih h with h' | h'
      · rcases List.mem_cons.mp h' with rfl | h''
        · exact Or.inr (List.mem_cons_self c rest)
        · exact Or.inl h''
      · exact Or.inr (List.mem_cons_of_mem a h')

theorem pyStrip_infix_self (x : List Char) : pyStrip x <:+: x := by
  unfold pyStrip
  have h1 : x.dropWhile pyIsSpace <:+ x := List.dropWhile_suffix _
  have h2 : (x.dropWhile pyIsSpace).reverse.dropWhile pyIsSpace <:+
      (x.dropWhile pyIsSpace).reverse := List.dropWhile_suffix _
  obtain ⟨w, hw⟩ := h2
  have h3 : ((x.dropWhile pyIsSpace).reverse.dropWhile pyIsSpace).reverse <+:
      x.dropWhile pyIsSpace := by
    refine ⟨w.reverse, ?_⟩
    have := congrArg List.reverse hw
    simpa [List.reverse_append] using this
  exact h3.isInfix.trans h1.isInfix

theorem mem_pyStrip {c : Char} {x : List Char} (h : c ∈ pyStrip x) : c ∈ x :=
  (pyStrip_infix_self x).subset h

/-! ## Identity lemmas for vacuous cleaning passes -/

theorem filter_ctrl_eq_self {x : List Char} (h : ∀ c ∈ x, isCtrlRemoved c = false) :
    x.filter (fun c => !isCtrlRemoved c) = x :=
  List.filter_eq_self.mpr (fun a ha => by simp [h a ha])

theorem tokenHasInnerAt_mem {tok : List Char} (h : tokenHasInnerAt tok = true) :
    '@' ∈ tok := by
  unfold tokenHasInnerAt at h
  have h1 : '@' ∈ (tok.drop 1).dropLast := by simpa using h
  exact (List.drop_sublist 1 tok).subset ((List.dropLast_sublist _).subset h1)

theorem emailRemoveAux_eq_of_no_at {acc x : List Char} (hacc : '@' ∉ acc)
    (hx : '@' ∉ x) : emailRemoveAux acc x = acc.reverse ++ x := by
  induction x generalizing acc with
  | nil =>
    unfold emailRemoveAux flushTok
    rw [if_neg (fun hc => hacc (by simpa using tokenHasInnerAt_mem hc))]
    simp
  | cons a rest ih =>
    have hx' : '@' ∉ rest := fun hc => hx (List.mem_cons_of_mem a hc)
    have ha : a ≠ '@' := fun hc => hx (by rw [hc]; exact List.mem_cons_self _ _)
    unfold emailRemoveAux
    split_ifs with h1
    · unfold flushTok
      rw [if_neg (fun hc => hacc (by simpa using tokenHasInnerAt_mem hc))]
      rw [ih (by simp) hx']
      simp
    · rw [ih (by
        intro hc
        rcases List.mem_cons.mp hc with hc' | hc'
        · exact ha hc'.symm
        · exact hacc hc') hx']
      simp

theorem emailRemove_eq_self {x : List Char} (hx : '@' ∉ x) : emailRemove x = x := by
  unfold emailRemove
  rw [emailRemoveAux_eq_of_no_at (by simp) hx]
  rfl

theorem flushRun_zero {d : Char} {m : Nat} {repl : List Char} (hm : 0 < m) :
    flushRun d m repl 0 = [] := by
  unfold flushRun
  rw [if_neg (by omega)]
  rfl

theorem collapseRun_eq_self_of_not_mem {d : Char} {m : Nat} {repl x : List Char}
    (hm : 0 < m) (h : d ∉ x) : collapseRun d m repl x = x := by
  unfold collapseRun
  induction x with
  | nil =>
    unfold collapseRunAux
    exact flushRun_zero hm
  | cons c rest ih =>
    have hc : c ≠ d := fun hc => h (by rw [← hc]; exact List.mem_cons_self _ _)
    unfold collapseRunAux
    rw [if_neg hc, flushRun_zero hm, ih (fun hc' => h (List.mem_cons_of_mem c hc'))]
    rfl

/-! ## Space structure of cleaned text

After the whitespace collapse, every whitespace character is a single space
and no two spaces are adjacent; the later passes preserve this shape, and on
text of this shape the whitespace collapse is the identity. -/

/-- No two adjacent spaces. -/
def SpaceR (a b : Char) : Prop := ¬(a = ' ' ∧ b = ' ')

/-- Whitespace normal form: whitespace characters are all `' '` and no two
are adjacent. -/
def GoodSpaces (x : List Char) : Prop :=
  (∀ c ∈ x, pyIsSpace c = true → c = ' ') ∧ List.Chain' SpaceR x

theorem spaceR_of_left {a b : Char} (h : a ≠ ' ') : SpaceR a b := fun hc => h hc.1

theorem spaceR_of_right {a b : Char} (h : b ≠ ' ') : SpaceR a b := fun hc => h hc.2

theorem ne_space_of_not_pyIsSpace {c : Char} (h : pyIsSpace c = false) : c ≠ ' ' :=
  fun hc => by rw [hc] at h; cases h

theorem wsCollapseAux_cons_space_true {c : Char} {rest : List Char}
    (h : pyIsSpace c = true) :
    wsCollapseAux true (c :: rest) = wsCollapseAux true rest := by
  simp [wsCollapseAux, h]

theorem wsCollapseAux_cons_space_false {c : Char} {rest : List Char}
    (h : pyIsSpace c = true) :
    wsCollapseAux false (c :: rest) = ' ' :: wsCollapseAux true rest := by
  simp [wsCollapseAux, h]

theorem wsCollapseAux_cons_nospace {c : Char} {b : Bool} {rest : List Char}
    (h : pyIsSpace c = false) :
    wsCollapseAux b (c :: rest) = c :: wsCollapseAux false rest := by
  simp [wsCollapseAux, h]

theorem wsCollapseAux_head_true {x : List Char} {y : Char}
    (h : (wsCollapseAux true x).head? = some y) : pyIsSpace y = false := by
  induction x with
  | nil => cases h
  | cons c rest ih =>
    by_cases h1 : pyIsSpace c
    · rw [wsCollapseAux_cons_space_true h1] at h
      exact ih h
    · have h1' : pyIsSpace c = false := by simpa using h1
      rw [wsCollapseAux_cons_nospace h1'] at h
      simp only [List.head?_cons, Option.some.injEq] at h
      rw [← h]
      exact h1'

theorem wsCollapseAux_chain (x : List Char) :
    ∀ b, List.Chain' SpaceR (wsCollapseAux b x) := by
  induction x with
  | nil => intro b; simp [wsCollapseAux]
  | cons c rest ih =>
    intro b
    by_cases h1 : pyIsSpace c
    · cases b
      · rw [wsCollapseAux_cons_space_false h1]
        refine List.chain'_cons'.mpr ⟨?_, ih true⟩
        intro y hy
        exact spaceR_of_right (ne_space_of_not_pyIsSpace (wsCollapseAux_head_true hy))
      · rw [wsCollapseAux_cons_space_true h1]
        exact ih true
    · have h1' : pyIsSpace c = false := by simpa using h1
      rw [wsCollapseAux_cons_nospace h1']
      refine List.chain'_cons'.mpr ⟨?_, ih false⟩
      intro y hy
      exact spaceR_of_left (ne_space_of_not_pyIsSpace h1')

theorem wsCollapse_goodSpaces (x : List Char) : GoodSpaces (wsCollapse x) := by
  refine ⟨?_, wsCollapseAux_chain x false⟩
  intro c hc hsp
  rcases mem_wsCollapseAux hc with h | ⟨_, h⟩
  · exact h
  · rw [h] at hsp; cases hsp

theorem goodSpaces_infix_mono {x y : List Char} (h : y <:+: x) (hx : GoodSpaces x) :
    GoodSpaces y :=
  ⟨fun c hc => hx.1 c (h.subset hc), List.Chain'.infix hx.2 h⟩

theorem chain_spaceR_of_all_eq {d : Char} {l : List Char} (hd : d ≠ ' ')
    (h : ∀ c ∈ l, c = d) : List.Chain' SpaceR l := by
  induction l with
  | nil => simp
  | cons a rest ih =>
    refine List.chain'_cons'.mpr ⟨?_, ih (fun c hc => h c (List.mem_cons_of_mem a hc))⟩
    intro y _
    exact spaceR_of_left (by rw [h a (List.mem_cons_self a rest)]; exact hd)

theorem mem_flushRun_eq {c d : Char} {m count r : Nat}
    (h : c ∈ flushRun d m (List.replicate r d) count) : c = d := by
  rcases mem_flushRun h with h' | h'
  · exact (List.mem_replicate.mp h').2
  · exact h'

theorem flushRun_head_pos {d : Char} {m count r : Nat} (hrl : 0 < r) (hc : 0 < count) :
    (flushRun d m (List.replicate r d) count).head? = some d := by
  unfold flushRun
  split_ifs
  · cases r with
    | zero => omega
    | succ n => simp [List.replicate_succ]
  · cases count with
    | zero => omega
    | succ n => simp [List.replicate_succ]

theorem collapseRunAux_head_pos {d : Char} {m r : Nat} {x : List Char}
    (hrl : 0 < r) :
    ∀ count, 0 < count →
      (collapseRunAux d m (List.replicate r d) count x).head? = some d := by
  induction x with
  | nil =>
    intro count hc
    unfold collapseRunAux
    exact flushRun_head_pos hrl hc
  | cons c rest ih =>
    intro count hc
    unfold collapseRunAux
    split_ifs with h1
    · exact ih (count + 1) (by omega)
    · rw [List.head?_append, flushRun_head_pos hrl hc]
      rfl

theorem collapseRunAux_head_zero {d : Char} {m r : Nat} {x : List Char}
    (hm : 0 < m) (hrl : 0 < r) :
    (collapseRunAux d m (List.replicate r d) 0 x).head? = x.head? := by
  cases x with
  | nil =>
    unfold collapseRunAux
    rw [flushRun_zero hm]
  | cons c rest =>
    unfold collapseRunAux
    split_ifs with h1
    · rw [collapseRunAux_head_pos hrl 1 (by omega), h1]
      rfl
    · rw [flushRun_zero hm]
      rfl

theorem collapseRunAux_chain {d : Char} {m r : Nat} {x : List Char}
    (hd : pyIsSpace d = false) (hm : 0 < m) (hrl : 0 < r)
    (hx : List.Chain' SpaceR x) :
    ∀ count, List.Chain' SpaceR (collapseRunAux d m (List.replicate r d) count x) := by
  have hd' : d ≠ ' ' := ne_space_of_not_pyIsSpace hd
  induction x with
  | nil =>
    intro count
    unfold collapseRunAux
    exact chain_spaceR_of_all_eq hd' (fun c hc => mem_flushRun_eq hc)
  | cons c rest ih =>
    intro count
    obtain ⟨hpair, hrest⟩ := List.chain'_cons'.mp hx
    unfold collapseRunAux
    split_ifs with h1
    · exact ih hrest (count + 1)
    · refine List.chain'_append.mpr ⟨?_, ?_, ?_⟩
      · exact chain_spaceR_of_all_eq hd' (fun a ha => mem_flushRun_eq ha)
      · refine List.chain'_cons'.mpr ⟨?_, ih hrest 0⟩
        intro y hy
        rw [collapseRunAux_head_zero hm hrl] at hy
        exact hpair y hy
      · intro a ha y _
        have : a ∈ flushRun d m (List.replicate r d) count := List.mem_of_mem_getLast? ha
        exact spaceR_of_left (by rw [mem_flushRun_eq this]; exact hd')

theorem collapseRun_goodSpaces {d : Char} {m r : Nat} {x : List Char}
    (hd : pyIsSpace d = false) (hm : 0 < m) (hrl : 0 < r) (hx : GoodSpaces x) :
    GoodSpaces (collapseRun d m (List.replicate r d) x) := by
  refine ⟨?_, collapseRunAux_chain hd hm hrl hx.2 0⟩
  intro c hc hsp
  rcases mem_collapseRunAux hc with h | h | h
  · rw [h] at hsp; rw [hsp] at hd; cases hd
  · rw [(List.mem_replicate.mp h).2] at hsp; rw [hsp] at hd; cases hd
  · exact hx.1 c h hsp

theorem wsCollapseAux_id (x : List Char) (hx : GoodSpaces x) :
    wsCollapseAux false x = x ∧
      ((∀ y ∈ x.head?, y ≠ ' ') → wsCollapseAux true x = x) := by
  induction x with
  | nil => exact ⟨rfl, fun _ => rfl⟩
  | cons c rest ih =>
    obtain ⟨hsp, hch⟩ := hx
    obtain ⟨hpair, hchrest⟩ := List.chain'_cons'.mp hch
    have hrest : GoodSpaces rest :=
      ⟨fun a ha hs => hsp a (List.mem_cons_of_mem c ha) hs, hchrest⟩
    obtain ⟨ihf, iht⟩ := ih hrest
    by_cases h1 : pyIsSpace c
    · have hc : c = ' ' := hsp c (List.mem_cons_self c rest) h1
      constructor
      · rw [wsCollapseAux_cons_space_false h1,
          iht (fun y hy hy' => (hpair y hy) ⟨hc, hy'⟩), hc]
      · intro hhead
        exact absurd hc (hhead c (by simp))
    · have h1' : pyIsSpace c = false := by simpa using h1
      refine ⟨?_, fun _ => ?_⟩
      · rw [wsCollapseAux_cons_nospace h1', ihf]
      · rw [wsCollapseAux_cons_nospace h1', ihf]

theorem wsCollapse_id {x : List Char} (hx : GoodSpaces x) : wsCollapse x = x :=
  (wsCollapseAux_id x hx).1

/-! ## Run bounds

After a punctuation collapse, no run of the collapsed character of the
threshold length remains; the other passes preserve this, and on input
without such a run the collapse is the identity. -/

/-- `x` contains no contiguous run of `m` copies of `d`. -/
def NoRun (d : Char) (m : Nat) (x : List Char) : Prop :=
  ¬ (List.replicate m d <:+: x)

theorem noRun_mono {d : Char} {m : Nat} {x y : List Char} (h : y <:+: x)
    (hx : NoRun d m x) : NoRun d m y := fun hc => hx (hc.trans h)

theorem replicate_prefix_iff_lead {e : Char} {k : Nat} {y : List Char} :
    List.replicate k e <+: y ↔ k ≤ (y.takeWhile (fun a => a == e)).length := by
  induction k generalizing y with
  | zero => simp
  | succ n ih =>
    cases y with
    | nil =>
      simp only [List.replicate_succ]
      constructor
      · intro h
        have := h.length_le
        simp at this
      · intro h
        simp at h
    | cons c rest =>
      by_cases hc : c = e
      · subst hc
        rw [List.replicate_succ, List.cons_prefix_cons,
          List.takeWhile_cons_of_pos (by simp)]
        simp only [List.length_cons, true_and]
        rw [ih]
        omega
      · rw [List.replicate_succ, List.cons_prefix_cons,
          List.takeWhile_cons_of_neg (by simpa using hc)]
        constructor
        · rintro ⟨he, -⟩
          exact absurd he.symm hc
        · intro h
          simp at h
      -- note: in the negative branch the takeWhile test is `c == e`

theorem replicate_infix_replicate {d e : Char} {k j : Nat} (hk : 0 < k)
    (h : List.replicate k e <:+: List.replicate j d) : e = d ∧ k ≤ j := by
  constructor
  · have he : e ∈ List.replicate k e := List.mem_replicate.mpr ⟨by omega, rfl⟩
    exact (List.mem_replicate.mp (h.subset he)).2
  · simpa using h.length_le

theorem replicate_prefix_of_le {d : Char} {m count : Nat} (h : m ≤ count)
    (y : List Char) : List.replicate m d <+: (List.replicate count d ++ y) := by
  have he : List.replicate count d =
      List.replicate m d ++ List.replicate (count - m) d := by
    rw [← List.replicate_add]
    congr 1
    omega
  rw [he, List.append_assoc]
  exact ⟨_, rfl⟩

theorem takeWhile_replicate_append {d c : Char} {j : Nat} {z : List Char} (hc : c ≠ d) :
    ((List.replicate j d ++ c :: z).takeWhile (fun a => a == d)) =
      List.replicate j d := by
  induction j with
  | zero =>
    simp only [List.replicate_zero, List.nil_append]
    exact List.takeWhile_cons_of_neg (by simpa using hc)
  | succ n ih =>
    rw [List.replicate_succ, List.cons_append,
      List.takeWhile_cons_of_pos (by simp), ih]

theorem replicate_infix_append_elim {e d : Char} {k j : Nat} {y : List Char}
    (hed : e ≠ d) (hk : 0 < k)
    (h : List.replicate k e <:+: (List.replicate j d ++ y)) :
    List.replicate k e <:+: y := by
  induction j with
  | zero => simpa using h
  | succ n ih =>
    rw [List.replicate_succ, List.cons_append] at h
    rcases List.infix_cons_iff.mp h with hp | hi
    · cases k with
      | zero => omega
      | succ k' =>
        rw [List.replicate_succ, List.cons_prefix_cons] at hp
        exact absurd hp.1 hed
    · exact ih hi

theorem replicate_d_infix_append_elim {d c : Char} {m j : Nat} {z : List Char}
    (hc : c ≠ d) (hm : 0 < m) (hj : j < m)
    (h : List.replicate m d <:+: (List.replicate j d ++ c :: z)) :
    List.replicate m d <:+: z := by
  induction j with
  | zero =>
    simp only [List.replicate_zero, List.nil_append] at h
    rcases List.infix_cons_iff.mp h with hp | hi
    · cases m with
      | zero => omega
      | succ m' =>
        rw [List.replicate_succ, List.cons_prefix_cons] at hp
        exact absurd hp.1.symm hc
    · exact hi
  | succ n ih =>
    rw [List.replicate_succ, List.cons_append] at h
    rcases List.infix_cons_iff.mp h with hp | hi
    · have hp' : List.replicate m d <+: (List.replicate (n + 1) d ++ c :: z) := by
        rwa [List.replicate_succ, List.cons_append]
      have hlead := replicate_prefix_iff_lead.mp hp'
      rw [takeWhile_replicate_append hc] at hlead
      simp only [List.length_replicate] at hlead
      omega
    · exact ih (by omega) hi

theorem replicate_append_cons_eq {d : Char} {n : Nat} {y : List Char} :
    List.replicate n d ++ d :: y = List.replicate (n + 1) d ++ y := by
  rw [List.replicate_succ' n d, List.append_assoc]
  rfl

theorem flushRun_eq_replicate {d : Char} {m r : Nat} (count : Nat) :
    ∃ j, flushRun d m (List.replicate r d) count = List.replicate j d := by
  unfold flushRun
  split_ifs
  · exact ⟨r, rfl⟩
  · exact ⟨count, rfl⟩

theorem flushRun_eq_replicate_lt {d : Char} {m r : Nat} (hrl : r < m) (count : Nat) :
    ∃ j, j < m ∧ flushRun d m (List.replicate r d) count = List.replicate j d := by
  unfold flushRun
  split_ifs with h1
  · exact ⟨r, hrl, rfl⟩
  · exact ⟨count, by omega, rfl⟩

theorem collapseRunAux_eq_of_noRun {d : Char} {m : Nat} {repl : List Char}
    (hm : 0 < m) (x : List Char) :
    ∀ count, ¬ (List.replicate m d <:+: (List.replicate count d ++ x)) →
      collapseRunAux d m repl count x = List.replicate count d ++ x := by
  induction x with
  | nil =>
    intro count h
    have hcm : ¬ (m ≤ count) :=
      fun hle => h (replicate_prefix_of_le hle []).isInfix
    simp only [collapseRunAux, flushRun]
    rw [if_neg hcm]
    simp
  | cons c rest ih =>
    intro count h
    by_cases hc : c = d
    · subst hc
      have h' : ¬ (List.replicate m c <:+: (List.replicate (count + 1) c ++ rest)) := by
        rwa [← replicate_append_cons_eq]
      simp only [collapseRunAux, if_true]
      rw [ih (count + 1) h', replicate_append_cons_eq]
    · have hcm : ¬ (m ≤ count) :=
        fun hle => h (replicate_prefix_of_le hle _).isInfix
      have hrest : ¬ (List.replicate m d <:+: rest) := by
        intro hinf
        exact h (hinf.trans
          ⟨List.replicate count d ++ [c], [], by simp⟩)
      simp only [collapseRunAux, flushRun]
      rw [if_neg hc, if_neg hcm]
      have h0 : ¬ (List.replicate m d <:+: (List.replicate 0 d ++ rest)) := by
        simpa using hrest
      rw [ih 0 h0]
      simp

theorem collapseRun_eq_of_noRun {d : Char} {m : Nat} {repl x : List Char}
    (hm : 0 < m) (h : NoRun d m x) : collapseRun d m repl x = x := by
  unfold collapseRun
  have h0 : ¬ (List.replicate m d <:+: (List.replicate 0 d ++ x)) := by
    simpa using h
  rw [collapseRunAux_eq_of_noRun hm x 0 h0]
  simp

theorem noRun_collapseRunAux {d : Char} {m r : Nat} (hm : 0 < m) (hrl : r < m)
    (x : List Char) :
    ∀ count, NoRun d m (collapseRunAux d m (List.replicate r d) count x) := by
  induction x with
  | nil =>
    intro count hinf
    simp only [collapseRunAux, flushRun] at hinf
    split_ifs at hinf with h1
    · have := (replicate_infix_replicate hm hinf).2
      omega
    · have := (replicate_infix_replicate hm hinf).2
      omega
  | cons c rest ih =>
    intro count
    by_cases hc : c = d
    · subst hc
      simp only [collapseRunAux, if_pos rfl]
      exact ih (count + 1)
    · intro hinf
      simp only [collapseRunAux] at hinf
      rw [if_neg hc] at hinf
      obtain ⟨j, hj, hfe⟩ := flushRun_eq_replicate_lt (d := d) hrl count
      rw [hfe] at hinf
      exact ih 0 (replicate_d_infix_append_elim hc hm hj hinf)

theorem lead_zero_of_head {e w : Char} {y : List Char} (h : y.head? = some w)
    (hw : (w == e) = false) : (y.takeWhile (fun a => a == e)).length = 0 := by
  cases y with
  | nil => cases h
  | cons c rest =>
    simp only [List.head?_cons, Option.some.injEq] at h
    subst h
    rw [List.takeWhile_cons_of_neg (by simp_all)]
    rfl

theorem lead_collapseRunAux_le {d e : Char} {m r : Nat} (hed : e ≠ d)
    (hm : 0 < m) (hrl : 0 < r) (x : List Char) :
    ((collapseRunAux d m (List.replicate r d) 0 x).takeWhile
        (fun a => a == e)).length ≤
      (x.takeWhile (fun a => a == e)).length := by
  induction x with
  | nil =>
    simp only [collapseRunAux, flushRun_zero hm]
    simp
  | cons c rest ih =>
    by_cases hc : c = d
    · subst hc
      simp only [collapseRunAux, if_true]
      rw [lead_zero_of_head (collapseRunAux_head_pos hrl 1 (by omega))
        (by simp [Ne.symm hed])]
      omega
    · simp only [collapseRunAux]
      rw [if_neg hc, flushRun_zero hm, List.nil_append]
      by_cases hce : c = e
      · subst hce
        rw [List.takeWhile_cons_of_pos (by simp),
          List.takeWhile_cons_of_pos (by simp)]
        simp only [List.length_cons]
        omega
      · rw [List.takeWhile_cons_of_neg (by simpa using hce),
          List.takeWhile_cons_of_neg (by simpa using hce)]

theorem noRun_collapseRunAux_preserve {d e : Char} {m r k : Nat}
    (hed : e ≠ d) (hk : 0 < k) (hm : 0 < m) (hrl : 0 < r) (x : List Char) :
    ∀ count, NoRun e k x →
      NoRun e k (collapseRunAux d m (List.replicate r d) count x) := by
  induction x with
  | nil =>
    intro count hx hinf
    simp only [collapseRunAux] at hinf
    obtain ⟨j, hfe⟩ := @flushRun_eq_replicate d m r count
    rw [hfe] at hinf
    exact hed (replicate_infix_replicate hk hinf).1
  | cons c rest ih =>
    intro count hx hinf
    have hxr : NoRun e k rest := noRun_mono (List.suffix_cons c rest).isInfix hx
    by_cases hc : c = d
    · subst hc
      simp only [collapseRunAux, if_true] at hinf
      exact ih (count + 1) hxr hinf
    · simp only [collapseRunAux] at hinf
      rw [if_neg hc] at hinf
      obtain ⟨j, hfe⟩ := @flushRun_eq_replicate d m r count
      rw [hfe] at hinf
      have hcz := replicate_infix_append_elim hed hk hinf
      rcases List.infix_cons_iff.mp hcz with hp | hi
      · have hlead := replicate_prefix_iff_lead.mp hp
        by_cases hce : c = e
        · subst hce
          rw [List.takeWhile_cons_of_pos (by simp)] at hlead
          simp only [List.length_cons] at hlead
          have hZ := lead_collapseRunAux_le hed hm hrl rest
          have hxlead : k ≤ ((c :: rest).takeWhile (fun a => a == c)).length := by
            rw [List.takeWhile_cons_of_pos (by simp)]
            simp only [List.length_cons]
            omega
          exact hx (replicate_prefix_iff_lead.mpr hxlead).isInfix
        · rw [lead_zero_of_head (by rfl) (by simpa using hce)] at hlead
          omega
      · exact ih 0 hxr hi

/-! ## Strip idempotence -/

theorem dropWhile_head_not {p : Char → Bool} {l : List Char} {c : Char}
    {rest : List Char} (h : l.dropWhile p = c :: rest) : p c = false := by
  induction l with
  | nil => cases h
  | cons a l' ih =>
    rw [List.dropWhile_cons] at h
    split_ifs at h with h1
    · exact ih h
    · injection h with h2 h3
      subst h2
      simpa using h1

theorem dropWhile_idem (p : Char → Bool) (l : List Char) :
    List.dropWhile p (List.dropWhile p l) = List.dropWhile p l := by
  cases h : l.dropWhile p with
  | nil => rfl
  | cons c rest =>
    rw [List.dropWhile_cons, if_neg (by simp [dropWhile_head_not h])]

theorem pyStrip_idem (x : List Char) : pyStrip (pyStrip x) = pyStrip x := by
  have hpre : pyStrip x <+: x.dropWhile pyIsSpace := by
    obtain ⟨a, ha⟩ :=
      List.dropWhile_suffix (l := (x.dropWhile pyIsSpace).reverse) pyIsSpace
    refine ⟨a.reverse, ?_⟩
    have := congrArg List.reverse ha
    simpa [List.reverse_append] using this
  have h1 : (pyStrip x).dropWhile pyIsSpace = pyStrip x := by
    cases hz : pyStrip x with
    | nil => rfl
    | cons c rest =>
      obtain ⟨w, hw⟩ := hpre
      rw [hz] at hw
      have hhead : x.dropWhile pyIsSpace = c :: (rest ++ w) := by
        rw [← hw]
        rfl
      rw [List.dropWhile_cons, if_neg (by simp [dropWhile_head_not hhead])]
  have h2 : (pyStrip x).reverse.dropWhile pyIsSpace = (pyStrip x).reverse := by
    have hrev : (pyStrip x).reverse =
        (x.dropWhile pyIsSpace).reverse.dropWhile pyIsSpace := by
      unfold pyStrip
      rw [List.reverse_reverse]
    rw [hrev, dropWhile_idem]
  show ((pyStrip x |>.dropWhile pyIsSpace).reverse.dropWhile pyIsSpace).reverse = _
  rw [h1, h2, List.reverse_reverse]

/-! ## Assembly: the cleaning pipeline on URL-, email- and control-free ASCII
text -/

theorem ctrl_false_of_printable {c : Char} (hlo : 32 ≤ c.toNat)
    (hhi : c.toNat < 127) : isCtrlRemoved c = false := by
  unfold isCtrlRemoved
  simp only [Bool.or_eq_false_iff, Bool.and_eq_false_iff, decide_eq_false_iff_not,
    not_le]
  omega

/-- Membership through the three punctuation collapses and the strip: every
character of the output is punctuation introduced by a replacement, a space,
or a non-whitespace character of the original text. -/
theorem mem_cleanCore {c : Char} {x : List Char}
    (h : c ∈ pyStrip (collapseRun '.' 4 ['.', '.', '.'] (collapseRun '?' 3 ['?']
      (collapseRun '!' 3 ['!'] (wsCollapse x))))) :
    c = '.' ∨ c = '?' ∨ c = '!' ∨ c = ' ' ∨ (c ∈ x ∧ pyIsSpace c = false) := by
  have h0 := mem_pyStrip h
  rcases mem_collapseRunAux h0 with h' | h' | h'
  · exact Or.inl h'
  · simp only [List.mem_cons, List.not_mem_nil, or_false] at h'
    rcases h' with h' | h' | h' <;> exact Or.inl h'
  · rcases mem_collapseRunAux h' with h'' | h'' | h''
    · exact Or.inr (Or.inl h'')
    · simp only [List.mem_singleton] at h''
      exact Or.inr (Or.inl h'')
    · rcases mem_collapseRunAux h'' with h3 | h3 | h3
      · exact Or.inr (Or.inr (Or.inl h3))
      · simp only [List.mem_singleton] at h3
        exact Or.inr (Or.inr (Or.inl h3))
      · rcases mem_wsCollapseAux h3 with h4 | h4
        · exact Or.inr (Or.inr (Or.inr (Or.inl h4)))
        · exact Or.inr (Or.inr (Or.inr (Or.inr h4)))

/-- The same membership bound before the strip. -/
theorem mem_cleanCoreNoStrip {c : Char} {x : List Char}
    (h : c ∈ collapseRun '.' 4 ['.', '.', '.'] (collapseRun '?' 3 ['?']
      (collapseRun '!' 3 ['!'] (wsCollapse x)))) :
    c = '.' ∨ c = '?' ∨ c = '!' ∨ c = ' ' ∨ (c ∈ x ∧ pyIsSpace c = false) := by
  rcases mem_collapseRunAux h with h' | h' | h'
  · exact Or.inl h'
  · simp only [List.mem_cons, List.not_mem_nil, or_false] at h'
    rcases h' with h' | h' | h' <;> exact Or.inl h'
  · rcases mem_collapseRunAux h' with h'' | h'' | h''
    · exact Or.inr (Or.inl h'')
    · simp only [List.mem_singleton] at h''
      exact Or.inr (Or.inl h'')
    · rcases mem_collapseRunAux h'' with h3 | h3 | h3
      · exact Or.inr (Or.inr (Or.inl h3))
      · simp only [List.mem_singleton] at h3
        exact Or.inr (Or.inr (Or.inl h3))
      · rcases mem_wsCollapseAux h3 with h4 | h4
        · exact Or.inr (Or.inr (Or.inr (Or.inl h4)))
        · exact Or.inr (Or.inr (Or.inr (Or.inr h4)))

/-- On ASCII text without `@` and without `:` the URL, email, control and
newline passes of the pipeline are all vacuous. -/
theorem cleanPipeline_core {x : List Char}
    (h1 : ∀ c ∈ x, c.toNat < 127 ∧ (32 ≤ c.toNat ∨ pyIsSpace c = true))
    (h2 : '@' ∉ x) (h3 : ':' ∉ x) :
    cleanPipeline x =
      pyStrip (collapseRun '.' 4 ['.', '.', '.'] (collapseRun '?' 3 ['?']
        (collapseRun '!' 3 ['!'] (wsCollapse x)))) := by
  have hascii : ∀ c ∈ x, c.toNat < 128 := fun c hc => by
    have := (h1 c hc).1
    omega
  have hctrl : ∀ c ∈ wsCollapse x, isCtrlRemoved c = false := by
    intro c hc
    rcases mem_wsCollapseAux hc with h | ⟨hm, hs⟩
    · rw [h]; decide
    · rcases (h1 c hm).2 with hge | hsp
      · exact ctrl_false_of_printable hge (h1 c hm).1
      · rw [hsp] at hs; cases hs
  have hcolon : ':' ∉ collapseRun '.' 4 ['.', '.', '.'] (collapseRun '?' 3 ['?']
      (collapseRun '!' 3 ['!'] (wsCollapse x))) := by
    intro hc
    rcases mem_cleanCoreNoStrip hc with h | h | h | h | ⟨hm, -⟩
    · cases h
    · cases h
    · cases h
    · cases h
    · exact h3 hm
  have hat : '@' ∉ collapseRun '.' 4 ['.', '.', '.'] (collapseRun '?' 3 ['?']
      (collapseRun '!' 3 ['!'] (wsCollapse x))) := by
    intro hc
    rcases mem_cleanCoreNoStrip hc with h | h | h | h | ⟨hm, -⟩
    · cases h
    · cases h
    · cases h
    · cases h
    · exact h2 hm
  have hnl : '\n' ∉ collapseRun '.' 4 ['.', '.', '.'] (collapseRun '?' 3 ['?']
      (collapseRun '!' 3 ['!'] (wsCollapse x))) := by
    intro hc
    rcases mem_cleanCoreNoStrip hc with h | h | h | h | ⟨-, hs⟩
    · cases h
    · cases h
    · cases h
    · cases h
    · rw [show pyIsSpace '\n' = true from by decide] at hs
      cases hs
  unfold cleanPipeline
  rw [nfkc_ascii hascii, filter_ctrl_eq_self hctrl, urlRemove_eq_self hcolon,
    emailRemove_eq_self hat, collapseRun_eq_self_of_not_mem (by omega) hnl]

/-- A text on which every pass of the cleaning pipeline is the identity. -/
theorem cleanPipeline_eq_self_of_props {y : List Char}
    (hascii : ∀ c ∈ y, c.toNat < 128)
    (hctrl : ∀ c ∈ y, isCtrlRemoved c = false)
    (hGS : GoodSpaces y)
    (hr1 : NoRun '!' 3 y) (hr2 : NoRun '?' 3 y) (hr3 : NoRun '.' 4 y)
    (hcolon : ':' ∉ y) (hat : '@' ∉ y) (hnl : '\n' ∉ y)
    (hstrip : pyStrip y = y) :
    cleanPipeline y = y := by
  unfold cleanPipeline
  rw [nfkc_ascii hascii, wsCollapse_id hGS, filter_ctrl_eq_self hctrl,
    collapseRun_eq_of_noRun (by omega) hr1,
    collapseRun_eq_of_noRun (by omega) hr2,
    collapseRun_eq_of_noRun (by omega) hr3,
    urlRemove_eq_self hcolon, emailRemove_eq_self hat,
    collapseRun_eq_self_of_not_mem (by omega) hnl, hstrip]

/-- The cleaning pipeline is idempotent on ASCII text without `@`, without
`:` and without non-whitespace control characters. -/
theorem cleanPipeline_idem_core {x : List Char}
    (h1 : ∀ c ∈ x, c.toNat < 127 ∧ (32 ≤ c.toNat ∨ pyIsSpace c = true))
    (h2 : '@' ∉ x) (h3 : ':' ∉ x) :
    cleanPipeline (cleanPipeline x) = cleanPipeline x := by
  rw [cleanPipeline_core h1 h2 h3]
  apply cleanPipeline_eq_self_of_props
  · intro c hc
    rcases mem_cleanCore hc with h | h | h | h | ⟨hm, -⟩
    · rw [h]; decide
    · rw [h]; decide
    · rw [h]; decide
    · rw [h]; decide
    · have := (h1 c hm).1
      omega
  · intro c hc
    rcases mem_cleanCore hc with h | h | h | h | ⟨hm, hs⟩
    · rw [h]; decide
    · rw [h]; decide
    · rw [h]; decide
    · rw [h]; decide
    · rcases (h1 c hm).2 with hge | hsp
      · exact ctrl_false_of_printable hge (h1 c hm).1
      · rw [hsp] at hs; cases hs
  · refine goodSpaces_infix_mono (pyStrip_infix_self _) ?_
    exact collapseRun_goodSpaces (r := 3) (by decide) (by omega) (by omega)
      (collapseRun_goodSpaces (r := 1) (by decide) (by omega) (by omega)
        (collapseRun_goodSpaces (r := 1) (by decide) (by omega) (by omega)
          (wsCollapse_goodSpaces x)))
  · refine noRun_mono (pyStrip_infix_self _) ?_
    exact noRun_collapseRunAux_preserve (r := 3) (by decide) (by omega) (by omega)
      (by omega) _ 0
      (noRun_collapseRunAux_preserve (r := 1) (by decide) (by omega) (by omega)
        (by omega) _ 0
        (noRun_collapseRunAux (r := 1) (by omega) (by omega) _ 0))
  · refine noRun_mono (pyStrip_infix_self _) ?_
    exact noRun_collapseRunAux_preserve (r := 3) (by decide) (by omega) (by omega)
      (by omega) _ 0
      (noRun_collapseRunAux (r := 1) (by omega) (by omega) _ 0)
  · refine noRun_mono (pyStrip_infix_self _) ?_
    exact noRun_collapseRunAux (r := 3) (by omega) (by omega) _ 0
  · intro hc
    rcases mem_cleanCore hc with h | h | h | h | ⟨hm, -⟩
    · cases h
    · cases h
    · cases h
    · cases h
    · exact h3 hm
  · intro hc
    rcases mem_cleanCore hc with h | h | h | h | ⟨hm, -⟩
    · cases h
    · cases h
    · cases h
    · cases h
    · exact h2 hm
  · intro hc
    rcases mem_cleanCore hc with h | h | h | h | ⟨-, hs⟩
    · cases h
    · cases h
    · cases h
    · cases h
    · rw [show pyIsSpace '\n' = true from by decide] at hs
      cases hs
  · exact pyStrip_idem _

/-! ## Claim C2 -/

/-- C2 counterexample: on `"x a@b y"` the email pass removes the token `a@b`
but leaves its two surrounding spaces, which the whitespace collapse only
merges on the next pass: the first clean yields `"x  y"`, the second
`"x y"`. -/
theorem C2_counterexample :
    (cleanText ((cleanText "x a@b y").cleaned_text)).cleaned_text ≠
      (cleanText "x a@b y").cleaned_text := by
  have hp1 : cleanPipeline "x a@b y".data = "x  y".data := by
    unfold cleanPipeline
    rw [show collapseRun '.' 4 ['.', '.', '.'] (collapseRun '?' 3 ['?']
      (collapseRun '!' 3 ['!'] ((wsCollapse (nfkc "x a@b y".data)).filter
        (fun c => !isCtrlRemoved c)))) = "x a@b y".data from by decide]
    rw [urlRemove_eq_self (by decide)]
    decide
  have hp2 : cleanPipeline "x  y".data = "x y".data := by
    unfold cleanPipeline
    rw [show collapseRun '.' 4 ['.', '.', '.'] (collapseRun '?' 3 ['?']
      (collapseRun '!' 3 ['!'] ((wsCollapse (nfkc "x  y".data)).filter
        (fun c => !isCtrlRemoved c)))) = "x y".data from by decide]
    rw [urlRemove_eq_self (by decide)]
    decide
  have e1 : (cleanText "x a@b y").cleaned_text = "x  y" := by
    unfold cleanText
    rw [if_neg (by decide)]
    show String.mk (cleanPipeline "x a@b y".data) = "x  y"
    rw [hp1]
  have e2 : (cleanText "x  y").cleaned_text = "x y" := by
    unfold cleanText
    rw [if_neg (by decide)]
    show String.mk (cleanPipeline "x  y".data) = "x y"
    rw [hp2]
  rw [e1, e2]
  decide

/-- C2 (amended): cleaning is idempotent after the first pass for every text
built from ASCII characters that are printable or whitespace and containing
neither `@` (no email-shaped tokens) nor `:` (no URL-shaped tokens): on such
text `clean(clean(t).cleaned_text).cleaned_text = clean(t).cleaned_text`.
(The exclusions are forced: removing an email or URL match, or a control
character, can leave two adjacent spaces that only the next pass's
whitespace collapse merges.) -/
theorem C2_amended (t : String)
    (h1 : ∀ c ∈ t.data, c.toNat < 127 ∧ (32 ≤ c.toNat ∨ pyIsSpace c = true))
    (h2 : '@' ∉ t.data) (h3 : ':' ∉ t.data) :
    (cleanText ((cleanText t).cleaned_text)).cleaned_text =
      (cleanText t).cleaned_text := by
  by_cases he : t = ""
  · subst he
    rfl
  · have hct : (cleanText t).cleaned_text = String.mk (cleanPipeline t.data) := by
      unfold cleanText
      rw [if_neg he]
    rw [hct]
    by_cases ho : cleanPipeline t.data = []
    · rw [ho]
      rfl
    · have hne : String.mk (cleanPipeline t.data) ≠ "" := by
        intro hc
        exact ho (by simpa using congrArg String.data hc)
      have hct2 : (cleanText (String.mk (cleanPipeline t.data))).cleaned_text =
          String.mk (cleanPipeline (cleanPipeline t.data)) := by
        unfold cleanText
        rw [if_neg hne]
      rw [hct2, cleanPipeline_idem_core h1 h2 h3]

/-- C2 witness: idempotence at the concrete input `"hello  world"`. -/
theorem C2_witness :
    ((∀ c ∈ ("hello  world" : String).data,
        c.toNat < 127 ∧ (32 ≤ c.toNat ∨ pyIsSpace c = true)) ∧
      '@' ∉ ("hello  world" : String).data ∧
      ':' ∉ ("hello  world" : String).data) ∧
      (cleanText ((cleanText "hello  world").cleaned_text)).cleaned_text =
        (cleanText "hello  world").cleaned_text :=
  ⟨⟨by decide, by decide, by decide⟩,
    C2_amended "hello  world" (by decide) (by decide) (by decide)⟩
